import Mathlib

/-!
Shallow embedding of the task-planning engine of the `planner` repository:
the topological task sorter (`tasks/task_sorter.py`), the priority-aware
plan generator (`tasks/test_plan_generator.py`), the dependency gate and
status manager (`tasks/task_dependencies.py`, `tasks/task_status.py`,
`planner-main/tasks/dependency_resolution.py`), and the coverage-gap
prioritizer (`planner-main/coverage/coverage_analyzer.py`).
-/

/-- Test category enumeration, from `TestType` in `tasks/test_task_model.py`. -/
inductive TestType where
  | unit
  | integration
  | e2e
  | exploratory
  | performance
  | security
deriving DecidableEq, Repr

/-- Execution status enumeration, from `TaskStatus` in `tasks/test_task_model.py`. -/
inductive TaskStatus where
  | pending
  | in_progress
  | blocked
  | done
deriving DecidableEq, Repr

/-- Coverage status enumeration, from `CoverageStatus` in `tasks/test_task_model.py`. -/
inductive CoverageStatus where
  | not_started
  | in_progress
  | complete
  | missing
deriving DecidableEq, Repr

/-- Value of a task's `coverage_status` field: the declared enum value, or a
legacy free-text string as tolerated by `CoverageAnalyzer._is_missing`. -/
inductive CovVal where
  | enum (c : CoverageStatus)
  | text (s : String)
deriving DecidableEq, Repr

/-- Task record, from the `TestTask` dataclass in `tasks/test_task_model.py`
(categories are validated to the closed enumeration at construction time by
`__post_init__`). -/
structure TestTask where
  id : String
  description : String
  test_type : TestType
  dependencies : List String
  status : TaskStatus
  owner : Option String
  coverage_status : CovVal
deriving DecidableEq, Repr

/-- Store lookup by id (`TestTaskDAL.get_task`): the first task carrying the
given id, if any. -/
def getTask (store : List TestTask) (i : String) : Option TestTask :=
  store.find? (fun t => t.id == i)

/-- Status write on the store row found by `getTask`: the ORM mutation
`task.status = s` followed by a commit updates exactly the task object that
the lookup returned, i.e. the first task with the given id. -/
def setStatus : List TestTask → String → TaskStatus → List TestTask
  | [], _, _ => []
  | t :: ts, i, s =>
    if t.id == i then { t with status := s } :: ts else t :: setStatus ts i s

namespace TaskDependencies

/-- Translation of `TaskDependencies.dependencies_complete`: `none` when the
task itself is absent; otherwise `some` of the dependency loop's outcome,
which is `false` as soon as a dependency id is absent from the store
(`not dep`) or resolves to a task whose status differs from `DONE`. The early
`if not deps: return True` coincides with `List.all` on `[]`. -/
def dependencies_complete (store : List TestTask) (i : String) : Option Bool :=
  match getTask store i with
  | none => none
  | some t =>
    some (t.dependencies.all (fun d =>
      match getTask store d with
      | none => false
      | some u => u.status == TaskStatus.done))

/-- Translation of `TaskDependencies.mark_in_progress_if_ready`, returning the
resulting store together with the returned boolean. The guard
`if not ready: return False` rejects both `None` and `False`. -/
def mark_in_progress_if_ready (store : List TestTask) (i : String) :
    List TestTask × Bool :=
  match getTask store i with
  | none => (store, false)
  | some _ =>
    match dependencies_complete store i with
    | some true => (setStatus store i TaskStatus.in_progress, true)
    | _ => (store, false)

/-- Translation of `TaskDependencies.complete_task`: same gate as
`mark_in_progress_if_ready`, target status `DONE`. -/
def complete_task (store : List TestTask) (i : String) :
    List TestTask × Bool :=
  match getTask store i with
  | none => (store, false)
  | some _ =>
    match dependencies_complete store i with
    | some true => (setStatus store i TaskStatus.done, true)
    | _ => (store, false)

end TaskDependencies

/-- Outcome of a status-manager call: the resulting store, the returned
boolean, the notification calls attempted (task id, old status, new status),
and the warnings logged for swallowed notification failures. -/
structure UpdateOutcome where
  store : List TestTask
  ok : Bool
  calls : List (String × TaskStatus × TaskStatus)
  warnings : List String
deriving DecidableEq, Repr

namespace TaskStatusManager

/-- Translation of `TaskStatusManager.update_status`. The notification emitter
is an injected fallible callback; its arguments record the task id and the
old and new statuses (the task description, owner and `changed_by` fields
passed along in the source carry no further decision content). The
`try/except` around the emitter logs a warning and keeps the already
committed write and the `True` return value. -/
def update_status (notify : String → TaskStatus → TaskStatus → Except String Unit)
    (store : List TestTask) (i : String) (new : TaskStatus) : UpdateOutcome :=
  match getTask store i with
  | none => ⟨store, false, [], []⟩
  | some t =>
    let old := t.status
    let store1 := setStatus store i new
    if old == new then ⟨store1, true, [], []⟩
    else
      match notify i old new with
      | Except.ok _ => ⟨store1, true, [(i, old, new)], []⟩
      | Except.error e => ⟨store1, true, [(i, old, new)], [e]⟩

end TaskStatusManager

namespace DependencyResolver

/-- Translation of `DependencyResolver.can_start`: `bool(ready)` collapses
both `None` and `False` to `false`. -/
def can_start (store : List TestTask) (i : String) : Bool :=
  (TaskDependencies.dependencies_complete store i).getD false

/-- Translation of `DependencyResolver.start_if_ready`: gate on `can_start`,
then delegate to `TaskStatusManager.update_status` with `IN_PROGRESS`. -/
def start_if_ready (notify : String → TaskStatus → TaskStatus → Except String Unit)
    (store : List TestTask) (i : String) : UpdateOutcome :=
  if can_start store i then
    TaskStatusManager.update_status notify store i TaskStatus.in_progress
  else ⟨store, false, [], []⟩

/-- Translation of `DependencyResolver.complete_if_ready`: gate on
`can_start`, then delegate to `update_status` with `DONE`. -/
def complete_if_ready (notify : String → TaskStatus → TaskStatus → Except String Unit)
    (store : List TestTask) (i : String) : UpdateOutcome :=
  if can_start store i then
    TaskStatusManager.update_status notify store i TaskStatus.done
  else ⟨store, false, [], []⟩

end DependencyResolver

/-- Relation modelling Python's stable `sorted(xs, key=key, reverse=True)`:
`a` may precede `b` iff `key b ≤ key a`. `List.insertionSort` with this
relation is a stable descending sort by `key`, which characterizes the
builtin uniquely (permutation, descending keys, original order kept among
equal keys). -/
def descBy {α : Type} (key : α → Int) (a b : α) : Prop := key b ≤ key a

instance {α : Type} (key : α → Int) : DecidableRel (descBy key) :=
  fun _ _ => Int.decLe _ _

instance {α : Type} (key : α → Int) : IsTotal α (descBy key) :=
  ⟨fun a b => le_total (key b) (key a)⟩

instance {α : Type} (key : α → Int) : IsTrans α (descBy key) :=
  ⟨fun _ _ _ h1 h2 => le_trans h2 h1⟩

/-- Stable descending sort by an integer key; the model of
`sorted(xs, key=key, reverse=True)`. -/
def sortedDescBy {α : Type} (key : α → Int) (l : List α) : List α :=
  List.insertionSort (descBy key) l

namespace CoverageAnalyzer

/-- Priority table `TEST_TYPE_PRIORITY` of `coverage/coverage_analyzer.py`.
The source reads it with `dict.get(test_type, 0)`; every validated category
is a key, so the table is total on `TestType`. -/
def TEST_TYPE_PRIORITY : TestType → Int
  | TestType.e2e => 5
  | TestType.integration => 4
  | TestType.security => 4
  | TestType.performance => 3
  | TestType.exploratory => 2
  | TestType.unit => 1

/-- Lower-casing of one character, as Python's `str.lower` acts on the ASCII
letters relevant to the coverage vocabulary. -/
def pyLowerChar (c : Char) : Char :=
  if 'A' ≤ c ∧ c ≤ 'Z' then Char.ofNat (c.toNat + 32) else c

/-- Leading-whitespace removal on a character list (`str.strip`, left half). -/
def dropLeadingWs : List Char → List Char
  | [] => []
  | c :: cs => if c.isWhitespace then dropLeadingWs cs else c :: cs

/-- Python's `str.strip()` on a character list: drop whitespace from both
ends. -/
def pyStrip (cs : List Char) : List Char :=
  (dropLeadingWs (dropLeadingWs cs.reverse).reverse)

/-- String normalization applied by `_is_missing`:
`status.strip().lower().replace(" ", "_")`. The single-character replacement
is the per-character substitution of spaces by underscores. -/
def normalizeCoverage (s : String) : String :=
  ⟨(pyStrip s.data).map (fun c => let l := pyLowerChar c; if l = ' ' then '_' else l)⟩

/-- Translation of `CoverageAnalyzer._is_missing`. -/
def is_missing (t : TestTask) : Bool :=
  match t.coverage_status with
  | CovVal.enum c => c == CoverageStatus.missing
  | CovVal.text s =>
    let n := normalizeCoverage s
    n == "missing" || n == "not_covered" || n == "notcovered"

/-- Translation of `CoverageAnalyzer.find_missing_coverage`. -/
def find_missing_coverage (ts : List TestTask) : List TestTask :=
  ts.filter is_missing

/-- Translation of `CoverageAnalyzer.prioritize_tests`: filter the tasks with
missing coverage, then stable-sort them descending by category priority. -/
def prioritize_tests (ts : List TestTask) : List TestTask :=
  sortedDescBy (fun t => TEST_TYPE_PRIORITY t.test_type) (find_missing_coverage ts)

end CoverageAnalyzer

/-- Default priority policy from `policies/policy_loader.py`
(`_load_priority_policy`), as a function on validated test types (the dict
lookup in `PriorityPolicy.get_priority_for_test_type` is keyed by the enum's
string value, and every category is a key, so `default_priority = 0` is not
reached). -/
def defaultPriority : TestType → Int
  | TestType.e2e => 5
  | TestType.integration => 4
  | TestType.security => 4
  | TestType.performance => 3
  | TestType.exploratory => 2
  | TestType.unit => 1

/-- Membership test `dep_id in tasks_by_id` used by the sorter and the plan
generator. -/
def inSet (ts : List TestTask) (d : String) : Bool :=
  ts.any (fun t => t.id == d)

/-- Single insertion into the model of a Python dict of tasks keyed by id:
a later task with an already-present id replaces the stored value in place,
otherwise the task is appended, preserving insertion order. -/
def dictInsert (l : List TestTask) (t : TestTask) : List TestTask :=
  if l.any (fun u => u.id == t.id) then
    l.map (fun u => if u.id == t.id then t else u)
  else l ++ [t]

/-- Model of `tasks_by_id = {t.id: t for t in tasks}`: the dict's values in
key-insertion order. -/
def tasksById (ts : List TestTask) : List TestTask :=
  ts.foldl dictInsert []

/-- Initial in-degree map: the task with a given id gets one unit per
dependency occurrence whose id is present in the task set (the
`if dep_id not in tasks_by_id: continue` filter); other ids read 0. -/
def initIndeg (ts : List TestTask) (i : String) : Int :=
  match ts.find? (fun t => t.id == i) with
  | some t => ((t.dependencies.filter (fun d => inSet ts d)).length : Int)
  | none => 0

/-- Adjacency list `graph[d]`: for each task in set order, its id once per
occurrence of `d` in its dependency list. The loop queries `graph` only at
ids of emitted tasks, which are present in the set, so the source's in-set
guard on the stored dependency edge holds at every queried key. -/
def graphSucc (ts : List TestTask) (d : String) : List String :=
  (ts.map (fun t => List.replicate (t.dependencies.count d) t.id)).flatten

/-- Placeholder task making the dict lookup `tasks_by_id[neighbor_id]` total;
the lookup cannot fail, because the graph holds only ids of tasks in the set. -/
def arbitraryTask : TestTask :=
  ⟨"", "", TestType.unit, [], TaskStatus.pending, none,
    CovVal.enum CoverageStatus.not_started⟩

/-- Pointwise update of the in-degree map. -/
def upd (f : String → Int) (k : String) (v : Int) : String → Int :=
  fun x => if x == k then v else f x

/-- Body of the inner `for neighbor_id in graph.get(current.id, [])` loop:
decrement each neighbor's in-degree and collect, in traversal order, the
tasks whose in-degree just reached zero; they are appended to the ready
queue. -/
def processNeighbors (ts : List TestTask) :
    List String → (String → Int) → List TestTask → (String → Int) × List TestTask
  | [], indeg, newly => (indeg, newly)
  | n :: rest, indeg, newly =>
    let indeg1 := upd indeg n (indeg n - 1)
    let newly1 :=
      if indeg1 n == 0 then
        newly ++ [((ts.find? (fun t => t.id == n)).getD arbitraryTask)]
      else newly
    processNeighbors ts rest indeg1 newly1

/-- Common wave loop of `TaskSorter.sort` and
`TestPlanGenerator.generate_plan`: pop the queue head, emit it, decrement its
successors' in-degrees, append the newly ready tasks to the queue, and apply
`requeue` to the queue (the identity for the FIFO sorter; the guarded stable
descending re-sort for the generator). The fuel is the task-set size, which
the number of loop iterations can never exceed, because every task enters
the ready queue at most once. -/
def loopCore (ts : List TestTask) (requeue : List TestTask → List TestTask) :
    Nat → (String → Int) → List TestTask → List TestTask → List TestTask
  | 0, _, _, acc => acc
  | fuel + 1, indeg, ready, acc =>
    match ready with
    | [] => acc
    | current :: rest =>
      let pr := processNeighbors ts (graphSucc ts current.id) indeg []
      loopCore ts requeue fuel pr.1 (requeue (rest ++ pr.2)) (acc ++ [current])

namespace TaskSorter

/-- Translation of `TaskSorter.sort`. The `ValueError` raised on a cycle is
modelled as `Except.error` carrying the reported collection of un-emitted
ids (`set(tasks_by_id) - {t.id for t in ordered}`); returning the error is
the model of raising, so no partial order escapes. -/
def sort (ts : List TestTask) : Except (List String) (List TestTask) :=
  let tsd := tasksById ts
  let indeg := initIndeg tsd
  let ready := tsd.filter (fun t => indeg t.id == 0)
  let ordered := loopCore tsd (fun l => l) tsd.length indeg ready []
  if ordered.length == tsd.length then Except.ok ordered
  else
    Except.error
      ((tsd.map (fun t => t.id)).filter (fun i => !(ordered.any (fun t => t.id == i))))

end TaskSorter

namespace TestPlanGenerator

/-- Re-sort step `if ready: ready = deque(sorted(ready, key=get_priority,
reverse=True))` at the bottom of the generator's loop. -/
def requeueByPriority (prio : TestType → Int) (l : List TestTask) : List TestTask :=
  if l.isEmpty then l else sortedDescBy (fun t => prio t.test_type) l

/-- Translation of `TestPlanGenerator.generate_plan`, parameterized by the
injected priority function (the policy lookup
`get_priority_for_test_type`). -/
def generate_plan (prio : TestType → Int) (ts : List TestTask) :
    Except (List String) (List TestTask) :=
  let tsd := tasksById ts
  let indeg := initIndeg tsd
  let ready := sortedDescBy (fun t => prio t.test_type) (tsd.filter (fun t => indeg t.id == 0))
  let plan := loopCore tsd (requeueByPriority prio) tsd.length indeg ready []
  if plan.length == tsd.length then Except.ok plan
  else
    Except.error
      ((tsd.map (fun t => t.id)).filter (fun i => !(plan.any (fun t => t.id == i))))

end TestPlanGenerator

/-! Specification-side notions used to state the claims, plus the auxiliary
quantities (emittable part of the task graph, eligibility times, gate-call
traces) the theorems refer to. -/

/-- Ids of a task list, in order. -/
def ids (l : List TestTask) : List String := l.map TestTask.id

/-- Claim-side reading of the `_is_missing` predicate: the enum value
`MISSING`, or a free-text value normalizing to one of the three accepted
spellings. -/
def MissingSpec (t : TestTask) : Prop :=
  t.coverage_status = CovVal.enum CoverageStatus.missing ∨
  ∃ s, t.coverage_status = CovVal.text s ∧
    (CoverageAnalyzer.normalizeCoverage s = "missing" ∨
     CoverageAnalyzer.normalizeCoverage s = "not_covered" ∨
     CoverageAnalyzer.normalizeCoverage s = "notcovered")

/-- Resolution of a dependency id to a completed task in the store. -/
def resolvesDone (store : List TestTask) (d : String) : Prop :=
  ∃ u, getTask store d = some u ∧ u.status = TaskStatus.done

/-- Acyclicity of the dependency relation restricted to ids present in the
task set, rendered as the existence of a rank function under which every
present dependency ranks strictly below its dependent — for a finite graph
this is exactly the absence of a dependency cycle. -/
def AcyclicIn (ts : List TestTask) : Prop :=
  ∃ rank : String → Nat,
    ∀ t ∈ ts, ∀ d ∈ t.dependencies, inSet ts d = true → rank d < rank t.id

/-- Well-founded part of the dependency graph: a task is emittable when it is
in the set and all the tasks its dependency ids resolve to (inside the set)
are themselves emittable. The wave algorithm emits exactly the emittable
tasks; the ids reported by the cycle error are exactly the others. -/
inductive Emittable (ts : List TestTask) : TestTask → Prop where
  | intro (t : TestTask) (ht : t ∈ ts)
      (hdeps : ∀ d ∈ t.dependencies, ∀ u ∈ ts, u.id = d → Emittable ts u) :
      Emittable ts t

/-- Topological validity of an output order: at every position, all
dependencies of the emitted task that are present in the set appear
strictly earlier. -/
def TopoValid (ts l : List TestTask) : Prop :=
  ∀ pre t post, l = pre ++ t :: post →
    ∀ d ∈ t.dependencies, inSet ts d = true → d ∈ ids pre

/-- Eligibility check: all dependencies of `t` present in the set already
appear among the emitted prefix `pre`. -/
def allDepsEmitted (ts pre : List TestTask) (t : TestTask) : Bool :=
  (t.dependencies.filter (fun d => inSet ts d)).all (fun d => pre.any (fun u => u.id == d))

/-- Number of dependency occurrences of `t` that are present in the set and
not yet emitted in `pre`; this is the in-degree the wave loop maintains. -/
def unemittedDeps (ts pre : List TestTask) (t : TestTask) : Nat :=
  (t.dependencies.filter
    (fun d => inSet ts d && !(pre.any (fun u => u.id == d)))).length

/-- Position of the first occurrence of an id in a list of ids. -/
def posOf : List String → String → Nat
  | [], _ => 0
  | x :: xs, d => if x == d then 0 else posOf xs d + 1

/-- Least `k ≤ n` satisfying `p` when one exists, and `n + 1` otherwise. -/
def leastUpTo (p : Nat → Bool) : Nat → Nat
  | 0 => if p 0 then 0 else 1
  | n + 1 =>
    let r := leastUpTo p n
    if r ≤ n then r else if p (n + 1) then n + 1 else n + 2

/-- Step at which a task becomes eligible relative to an emission order `l`:
the least prefix length of `l` containing all its in-set dependencies
(`l.length + 1` if there is none). Ties in the generator's ready queue are
broken by this quantity and then by input position. -/
def eligTime (ts l : List TestTask) (t : TestTask) : Nat :=
  leastUpTo (fun k => allDepsEmitted ts (l.take k) t) l.length

/-- Gated status-writing operations of the engine (the administrative
`update_status` override is deliberately not one of them). -/
inductive GateOp where
  | start (i : String)
  | complete (i : String)
deriving DecidableEq, Repr

/-- Store transformation of one gated call. -/
def applyGate (op : GateOp) (store : List TestTask) : List TestTask :=
  match op with
  | GateOp.start i => (TaskDependencies.mark_in_progress_if_ready store i).1
  | GateOp.complete i => (TaskDependencies.complete_task store i).1

/-- Store reached after a sequence of gated calls. -/
def runGate (ops : List GateOp) (store : List TestTask) : List TestTask :=
  ops.foldl (fun s op => applyGate op s) store

/-! Concrete fixtures used by witnesses and counterexamples. -/

/-- Task literal with the fields the planning engine reads. -/
def mkTask (i : String) (ty : TestType) (deps : List String) (st : TaskStatus) : TestTask :=
  ⟨i, "", ty, deps, st, none, CovVal.enum CoverageStatus.not_started⟩

/-- Notification emitter that always succeeds. -/
def notifyOk : String → TaskStatus → TaskStatus → Except String Unit :=
  fun _ _ _ => Except.ok ()

/-- Notification emitter that always fails. -/
def notifyFail : String → TaskStatus → TaskStatus → Except String Unit :=
  fun _ _ _ => Except.error "notification dispatch failed"

/-- Store holding one task whose only dependency id is absent. -/
def ghostStore : List TestTask := [mkTask "Z" TestType.unit ["ghost-id"] TaskStatus.pending]

/-- Store for the gate counterexample: a pending task with an absent
dependency id. -/
def ghostStartStore : List TestTask := [mkTask "X" TestType.unit ["ghost"] TaskStatus.pending]

/-- Store for the own-status counterexample: a blocked task with an absent
dependency id. -/
def ghostBlockedStore : List TestTask := [mkTask "X" TestType.unit ["ghost"] TaskStatus.blocked]

/-- Two-task store with an unfinished dependency. -/
def pendingDepStore : List TestTask :=
  [mkTask "Y" TestType.unit [] TaskStatus.pending,
   mkTask "X" TestType.integration ["Y"] TaskStatus.pending]

/-- Two-task store whose dependency is done. -/
def doneDepStore : List TestTask :=
  [mkTask "Y" TestType.unit [] TaskStatus.done,
   mkTask "X" TestType.integration ["Y"] TaskStatus.pending]

/-- Acyclic three-task chain, scenario 1 of the spec. -/
def chainTasks : List TestTask :=
  [mkTask "A" TestType.unit [] TaskStatus.pending,
   mkTask "B" TestType.unit ["A"] TaskStatus.pending,
   mkTask "C" TestType.unit ["B"] TaskStatus.pending]

/-- Two-task dependency cycle, scenario 2 of the spec. -/
def cycleTasks : List TestTask :=
  [mkTask "A" TestType.unit ["B"] TaskStatus.pending,
   mkTask "B" TestType.unit ["A"] TaskStatus.pending]

/-- Two independently-rooted tasks with priorities 1 and 5, scenario 3. -/
def rootedTasks : List TestTask :=
  [mkTask "U" TestType.unit [] TaskStatus.pending,
   mkTask "E" TestType.e2e [] TaskStatus.pending]

/-- Equal-priority tasks where the tie among simultaneously eligible tasks is
not resolved by input position: after emitting `A`, both `B` and `C` are
eligible, equal priority, `B` first in the input, yet `C` is emitted first. -/
def tieTasks : List TestTask :=
  [mkTask "A" TestType.unit [] TaskStatus.pending,
   mkTask "B" TestType.unit ["A"] TaskStatus.pending,
   mkTask "C" TestType.unit [] TaskStatus.pending]

/-- Coverage fixture, scenario 5 of the spec. -/
def covP : TestTask :=
  ⟨"P", "", TestType.unit, [], TaskStatus.pending, none, CovVal.enum CoverageStatus.complete⟩

/-- Coverage fixture with missing coverage and top category priority. -/
def covQ : TestTask :=
  ⟨"Q", "", TestType.e2e, [], TaskStatus.pending, none, CovVal.enum CoverageStatus.missing⟩

/-- Coverage fixture with a legacy free-text coverage value. -/
def covR : TestTask :=
  ⟨"R", "", TestType.unit, [], TaskStatus.pending, none, CovVal.text "Not Covered"⟩

/-- Queue tie-break order of the generator: earlier eligibility step first,
then earlier input position, both measured against the emitted prefix `l`. -/
def EligBefore (ts l : List TestTask) (t u : TestTask) : Prop :=
  eligTime ts l t < eligTime ts l u ∨
    (eligTime ts l t = eligTime ts l u ∧ posOf (ids ts) t.id < posOf (ids ts) u.id)

/-- Greedy-priority property of an emission order: at every step, the
emitted task carries maximal priority among the tasks then eligible (all
in-set dependencies already emitted, task itself not yet emitted). -/
def GreedyByPriority (prio : TestType → Int) (ts l : List TestTask) : Prop :=
  ∀ pre x post, l = pre ++ x :: post →
    ∀ u ∈ ts, u ∉ pre → allDepsEmitted ts pre u = true →
      prio u.test_type ≤ prio x.test_type

/-- Stable tie-break property of an emission order: whenever an eligible task
`u` ties on priority with the emitted task `x`, the emitted one became
eligible strictly earlier, or at the same step and earlier in the input. -/
def StableTieBreak (prio : TestType → Int) (ts l : List TestTask) : Prop :=
  ∀ pre x post, l = pre ++ x :: post →
    ∀ u ∈ ts, u ∉ pre → u ≠ x → allDepsEmitted ts pre u = true →
      prio u.test_type = prio x.test_type → EligBefore ts pre x u

/-- Tie-break rule asserted by the specification: whenever two or more
simultaneously eligible tasks tie on maximal priority, the one earliest in
the input sequence is emitted first. -/
def InputOrderTieBreak (prio : TestType → Int) (ts l : List TestTask) : Prop :=
  ∀ pre x post, l = pre ++ x :: post →
    ∀ u ∈ ts, u ∉ pre → u ≠ x → allDepsEmitted ts pre u = true →
      prio u.test_type = prio x.test_type →
      posOf (ids ts) x.id < posOf (ids ts) u.id

/-- Invariant of the wave loop, tying the in-degree map, the ready queue and
the emitted prefix to the task set. -/
structure LoopInv (ts : List TestTask) (indeg : String → Int)
    (ready acc : List TestTask) : Prop where
  hsub : ∀ t, t ∈ acc ++ ready → t ∈ ts
  hnodup : (ids (acc ++ ready)).Nodup
  hindeg : ∀ t ∈ ts, indeg t.id = (unemittedDeps ts acc t : Int)
  hmem : ∀ t ∈ ts, (t ∈ acc ∨ t ∈ ready) ↔ allDepsEmitted ts acc t = true
  htopo : TopoValid ts acc

/-- State of the wave loop at exit: the emitted list is exactly the
dependency-closed part of the set reached so far, topologically valid. -/
structure EndInv (ts acc : List TestTask) : Prop where
  hsub : ∀ t ∈ acc, t ∈ ts
  hnodup : (ids acc).Nodup
  hmem : ∀ t ∈ ts, t ∈ acc ↔ allDepsEmitted ts acc t = true
  htopo : TopoValid ts acc

/-- Additional invariant of the generator's loop: the queue is the stable
descending sort of an enqueue-ordered list, and the emitted prefix is greedy
by priority with stable tie-break. -/
structure PlanInv (prio : TestType → Int) (ts : List TestTask)
    (ready acc : List TestTask) : Prop where
  hqueue : ∃ enq, ready = sortedDescBy (fun t => prio t.test_type) enq ∧
    enq.Pairwise (EligBefore ts acc)
  hgreedy : GreedyByPriority prio ts acc
  hstable : StableTieBreak prio ts acc

/-! Basic store lemmas. -/

theorem getTask_cons (t : TestTask) (ts : List TestTask) (i : String) :
    getTask (t :: ts) i = if t.id == i then some t else getTask ts i := by
  by_cases h : t.id == i <;> simp [getTask, List.find?_cons, h]

theorem setStatus_cons (t : TestTask) (ts : List TestTask) (i : String) (s : TaskStatus) :
    setStatus (t :: ts) i s =
      if t.id == i then { t with status := s } :: ts else t :: setStatus ts i s := rfl

theorem setStatus_length (store : List TestTask) (i : String) (s : TaskStatus) :
    (setStatus store i s).length = store.length := by
  induction store with
  | nil => rfl
  | cons t ts ih =>
    by_cases h : t.id == i <;> simp [setStatus, h, ih]

theorem setStatus_of_getTask_none (store : List TestTask) (i : String) (s : TaskStatus)
    (h : getTask store i = none) : setStatus store i s = store := by
  induction store with
  | nil => rfl
  | cons t ts ih =>
    rw [getTask_cons] at h
    by_cases ht : t.id == i
    · simp [ht] at h
    · simp [ht] at h
      simp [setStatus, ht, ih h]

theorem getTask_setStatus_ne (store : List TestTask) (i d : String) (s : TaskStatus)
    (h : d ≠ i) : getTask (setStatus store i s) d = getTask store d := by
  induction store with
  | nil => rfl
  | cons t ts ih =>
    by_cases ht : t.id == i
    · have htid : t.id = i := by simpa using ht
      have : ¬ t.id == d := by
        simp [htid]
        exact fun hc => h hc.symm
      simp [setStatus, ht, getTask_cons, this]
    · rw [setStatus_cons, if_neg (by simpa using ht), getTask_cons, getTask_cons, ih]

theorem getTask_setStatus_self (store : List TestTask) (i : String) (s : TaskStatus)
    (t : TestTask) (h : getTask store i = some t) :
    getTask (setStatus store i s) i = some { t with status := s } := by
  induction store with
  | nil => simp [getTask] at h
  | cons u ts ih =>
    rw [getTask_cons] at h
    by_cases hu : u.id == i
    · simp only [hu, if_pos] at h
      cases h
      simp [setStatus, hu, getTask_cons]
    · simp only [hu, if_neg] at h
      simp [setStatus, hu, getTask_cons, ih h]

/-! Bridging lemmas for the dependency gate. -/

theorem depOk_iff (store : List TestTask) (d : String) :
    ((match getTask store d with
      | none => false
      | some u => u.status == TaskStatus.done) = true) ↔ resolvesDone store d := by
  cases h : getTask store d with
  | none => simp [h, resolvesDone]
  | some u => simp [h, resolvesDone]

theorem dependencies_complete_of_getTask_none (store : List TestTask) (i : String)
    (h : getTask store i = none) :
    TaskDependencies.dependencies_complete store i = none := by
  simp [TaskDependencies.dependencies_complete, h]

theorem dependencies_complete_of_getTask_some (store : List TestTask) (i : String)
    (t : TestTask) (h : getTask store i = some t) :
    TaskDependencies.dependencies_complete store i =
      some (t.dependencies.all (fun d =>
        match getTask store d with
        | none => false
        | some u => u.status == TaskStatus.done)) := by
  simp [TaskDependencies.dependencies_complete, h]

theorem dependencies_complete_true_iff (store : List TestTask) (i : String)
    (t : TestTask) (h : getTask store i = some t) :
    (TaskDependencies.dependencies_complete store i = some true ↔
      ∀ d ∈ t.dependencies, resolvesDone store d) := by
  rw [dependencies_complete_of_getTask_some store i t h]
  simp only [Option.some_inj, List.all_eq_true, depOk_iff]

theorem dependencies_complete_false_iff (store : List TestTask) (i : String)
    (t : TestTask) (h : getTask store i = some t) :
    (TaskDependencies.dependencies_complete store i = some false ↔
      ∃ d ∈ t.dependencies, ¬ resolvesDone store d) := by
  rw [dependencies_complete_of_getTask_some store i t h]
  simp only [Option.some_inj]
  constructor
  · intro hall
    have : ¬ (t.dependencies.all (fun d =>
        match getTask store d with
        | none => false
        | some u => u.status == TaskStatus.done) = true) := by
      rw [hall]; simp
    rw [List.all_eq_true] at this
    push_neg at this
    obtain ⟨d, hd, hne⟩ := this
    exact ⟨d, hd, fun hres => hne ((depOk_iff store d).mpr hres)⟩
  · intro ⟨d, hd, hres⟩
    have : ¬ (t.dependencies.all (fun d =>
        match getTask store d with
        | none => false
        | some u => u.status == TaskStatus.done) = true) := by
      rw [List.all_eq_true]
      intro hall
      exact hres ((depOk_iff store d).mp (hall d hd))
    exact Bool.eq_false_iff.mpr (fun hc => this hc)

theorem list_all_congr {α : Type} (l : List α) (p q : α → Bool)
    (h : ∀ x ∈ l, p x = q x) : l.all p = l.all q := by
  induction l with
  | nil => rfl
  | cons x xs ih =>
    simp only [List.all_cons]
    rw [h x (by simp), ih (fun y hy => h y (by simp [hy]))]

theorem update_status_of_getTask_none
    (notify : String → TaskStatus → TaskStatus → Except String Unit)
    (store : List TestTask) (i : String) (new : TaskStatus)
    (h : getTask store i = none) :
    TaskStatusManager.update_status notify store i new = ⟨store, false, [], []⟩ := by
  simp [TaskStatusManager.update_status, h]

theorem update_status_of_getTask_some
    (notify : String → TaskStatus → TaskStatus → Except String Unit)
    (store : List TestTask) (i : String) (new : TaskStatus) (t : TestTask)
    (h : getTask store i = some t) :
    (TaskStatusManager.update_status notify store i new).store = setStatus store i new ∧
    (TaskStatusManager.update_status notify store i new).ok = true ∧
    ((TaskStatusManager.update_status notify store i new).calls =
      if t.status = new then [] else [(i, t.status, new)]) := by
  unfold TaskStatusManager.update_status
  rw [h]
  by_cases hs : t.status = new
  · simp [hs]
  · have hs' : ¬ (t.status == new) = true := by simpa using hs
    cases hn : notify i t.status new <;> simp [hs, hs', hn]

/-- C3 (amended): for a task id present in the store,
`dependencies_complete` returns `some true` iff every dependency id resolves
to a task in the store whose status is done, and `some false` iff some
dependency id fails to resolve to a done task — in particular a dependency
id absent from the store blocks the gate instead of being treated as
satisfied. For a task id absent from the store, the distinct not-found
value `none` is returned, not `some false`. -/
theorem C3_dependencies_complete_amended (store : List TestTask) (i : String) :
    (getTask store i = none → TaskDependencies.dependencies_complete store i = none) ∧
    (∀ t, getTask store i = some t →
      (TaskDependencies.dependencies_complete store i = some true ↔
        ∀ d ∈ t.dependencies, resolvesDone store d) ∧
      (TaskDependencies.dependencies_complete store i = some false ↔
        ∃ d ∈ t.dependencies, ¬ resolvesDone store d)) :=
  ⟨fun h => dependencies_complete_of_getTask_none store i h,
   fun t h => ⟨dependencies_complete_true_iff store i t h,
               dependencies_complete_false_iff store i t h⟩⟩

/-- C3 counterexample: the task `Z` whose only dependency id `ghost-id` is
absent from the store gets `dependenciesComplete = some false`, not the
`true` the claim asserts. -/
theorem C3_counterexample :
    getTask ghostStore "ghost-id" = none ∧
    getTask ghostStore "Z" =
      some (mkTask "Z" TestType.unit ["ghost-id"] TaskStatus.pending) ∧
    TaskDependencies.dependencies_complete ghostStore "Z" = some false ∧
    ¬ TaskDependencies.dependencies_complete ghostStore "Z" = some true :=
  ⟨rfl, rfl, rfl, by decide⟩

theorem C3_witness :
    getTask ghostStore "Z" =
      some (mkTask "Z" TestType.unit ["ghost-id"] TaskStatus.pending) ∧
    (TaskDependencies.dependencies_complete ghostStore "Z" = some false ↔
      ∃ d ∈ (mkTask "Z" TestType.unit ["ghost-id"] TaskStatus.pending).dependencies,
        ¬ resolvesDone ghostStore d) :=
  ⟨rfl, ((C3_dependencies_complete_amended ghostStore "Z").2 _ rfl).2⟩

/-- C4 (amended): for a task id present in the store, the gate operations
return false and change nothing — no status write, no notification call, no
warning — whenever some dependency id fails to resolve to a done task in the
store (absent from the store, or present with status not done); when every
dependency id resolves to a done task, they write the target status and
return true. -/
theorem C4_gate_amended (notify : String → TaskStatus → TaskStatus → Except String Unit)
    (store : List TestTask) (i : String) (t : TestTask)
    (h : getTask store i = some t) :
    ((∃ d ∈ t.dependencies, ¬ resolvesDone store d) →
      TaskDependencies.mark_in_progress_if_ready store i = (store, false) ∧
      TaskDependencies.complete_task store i = (store, false) ∧
      DependencyResolver.start_if_ready notify store i = ⟨store, false, [], []⟩ ∧
      DependencyResolver.complete_if_ready notify store i = ⟨store, false, [], []⟩) ∧
    ((∀ d ∈ t.dependencies, resolvesDone store d) →
      TaskDependencies.mark_in_progress_if_ready store i =
        (setStatus store i TaskStatus.in_progress, true) ∧
      TaskDependencies.complete_task store i =
        (setStatus store i TaskStatus.done, true) ∧
      (DependencyResolver.start_if_ready notify store i).store =
        setStatus store i TaskStatus.in_progress ∧
      (DependencyResolver.start_if_ready notify store i).ok = true ∧
      (DependencyResolver.complete_if_ready notify store i).store =
        setStatus store i TaskStatus.done ∧
      (DependencyResolver.complete_if_ready notify store i).ok = true) := by
  constructor
  · intro hbad
    have hdc : TaskDependencies.dependencies_complete store i = some false :=
      (dependencies_complete_false_iff store i t h).mpr hbad
    have hcs : DependencyResolver.can_start store i = false := by
      simp [DependencyResolver.can_start, hdc]
    refine ⟨?_, ?_, ?_, ?_⟩
    · simp [TaskDependencies.mark_in_progress_if_ready, h, hdc]
    · simp [TaskDependencies.complete_task, h, hdc]
    · simp [DependencyResolver.start_if_ready, hcs]
    · simp [DependencyResolver.complete_if_ready, hcs]
  · intro hgood
    have hdc : TaskDependencies.dependencies_complete store i = some true :=
      (dependencies_complete_true_iff store i t h).mpr hgood
    have hcs : DependencyResolver.can_start store i = true := by
      simp [DependencyResolver.can_start, hdc]
    have hstart := update_status_of_getTask_some notify store i TaskStatus.in_progress t h
    have hdone := update_status_of_getTask_some notify store i TaskStatus.done t h
    refine ⟨?_, ?_, ?_, ?_, ?_, ?_⟩
    · simp [TaskDependencies.mark_in_progress_if_ready, h, hdc]
    · simp [TaskDependencies.complete_task, h, hdc]
    · simpa [DependencyResolver.start_if_ready, hcs] using hstart.1
    · simpa [DependencyResolver.start_if_ready, hcs] using hstart.2.1
    · simpa [DependencyResolver.complete_if_ready, hcs] using hdone.1
    · simpa [DependencyResolver.complete_if_ready, hcs] using hdone.2.1

/-- C4 counterexample: the task `X` has no dependency present in the store,
so the claim's "otherwise" branch asserts that `startIfReady` sets
`in_progress` and returns true; the code returns false and changes nothing,
because the absent dependency id `ghost` blocks the gate. -/
theorem C4_counterexample :
    (∀ u ∈ ghostStartStore,
      ∀ d ∈ (mkTask "X" TestType.unit ["ghost"] TaskStatus.pending).dependencies,
        u.id ≠ d) ∧
    TaskDependencies.mark_in_progress_if_ready ghostStartStore "X" =
      (ghostStartStore, false) ∧
    DependencyResolver.start_if_ready notifyOk ghostStartStore "X" =
      ⟨ghostStartStore, false, [], []⟩ := by
  refine ⟨by decide, rfl, rfl⟩

theorem C4_witness :
    getTask doneDepStore "X" =
      some (mkTask "X" TestType.integration ["Y"] TaskStatus.pending) ∧
    (∀ d ∈ (mkTask "X" TestType.integration ["Y"] TaskStatus.pending).dependencies,
      resolvesDone doneDepStore d) ∧
    TaskDependencies.mark_in_progress_if_ready doneDepStore "X" =
      (setStatus doneDepStore "X" TaskStatus.in_progress, true) := by
  have ht : getTask doneDepStore "X" =
      some (mkTask "X" TestType.integration ["Y"] TaskStatus.pending) := rfl
  have hdeps : ∀ d ∈ (mkTask "X" TestType.integration ["Y"] TaskStatus.pending).dependencies,
      resolvesDone doneDepStore d := by
    intro d hd
    have hdY : d = "Y" := by simpa [mkTask] using hd
    subst hdY
    exact ⟨mkTask "Y" TestType.unit [] TaskStatus.done, rfl, rfl⟩
  exact ⟨ht, hdeps, ((C4_gate_amended notifyOk doneDepStore "X" _ ht).2 hdeps).1⟩

/-- C8 (confirmed): `update_status` writes the new status unconditionally
(no dependency check appears in its result), returns false exactly when the
task does not exist (leaving everything unchanged in that case), attempts
the status-change notification exactly when the old status differs from the
new one, and neither the resulting store, nor the returned boolean, nor the
attempted calls depend on the notification emitter — a throwing emitter
cannot roll back the write or fail the call. -/
theorem C8_update_status (notify : String → TaskStatus → TaskStatus → Except String Unit)
    (store : List TestTask) (i : String) (new : TaskStatus) :
    ((TaskStatusManager.update_status notify store i new).ok = false ↔
      getTask store i = none) ∧
    (getTask store i = none →
      TaskStatusManager.update_status notify store i new = ⟨store, false, [], []⟩) ∧
    (∀ t, getTask store i = some t →
      (TaskStatusManager.update_status notify store i new).store = setStatus store i new ∧
      (TaskStatusManager.update_status notify store i new).ok = true ∧
      ((TaskStatusManager.update_status notify store i new).calls =
        if t.status = new then [] else [(i, t.status, new)])) ∧
    (∀ notify2 : String → TaskStatus → TaskStatus → Except String Unit,
      (TaskStatusManager.update_status notify store i new).store =
        (TaskStatusManager.update_status notify2 store i new).store ∧
      (TaskStatusManager.update_status notify store i new).ok =
        (TaskStatusManager.update_status notify2 store i new).ok ∧
      (TaskStatusManager.update_status notify store i new).calls =
        (TaskStatusManager.update_status notify2 store i new).calls) := by
  refine ⟨?_, fun h => update_status_of_getTask_none notify store i new h,
    fun t h => update_status_of_getTask_some notify store i new t h, ?_⟩
  · cases h : getTask store i with
    | none => simp [update_status_of_getTask_none notify store i new h, h]
    | some t =>
      have := update_status_of_getTask_some notify store i new t h
      simp [this.2.1, h]
  · intro notify2
    cases h : getTask store i with
    | none =>
      rw [update_status_of_getTask_none notify store i new h,
        update_status_of_getTask_none notify2 store i new h]
      exact ⟨rfl, rfl, rfl⟩
    | some t =>
      have h1 := update_status_of_getTask_some notify store i new t h
      have h2 := update_status_of_getTask_some notify2 store i new t h
      exact ⟨h1.1.trans h2.1.symm, h1.2.1.trans h2.2.1.symm, h1.2.2.trans h2.2.2.symm⟩

theorem C8_witness :
    getTask pendingDepStore "Y" = some (mkTask "Y" TestType.unit [] TaskStatus.pending) ∧
    (TaskStatusManager.update_status notifyFail pendingDepStore "Y" TaskStatus.done).store =
      setStatus pendingDepStore "Y" TaskStatus.done ∧
    (TaskStatusManager.update_status notifyFail pendingDepStore "Y" TaskStatus.done).ok = true ∧
    (TaskStatusManager.update_status notifyFail pendingDepStore "Y" TaskStatus.done).calls =
      [("Y", TaskStatus.pending, TaskStatus.done)] := by
  have h := (C8_update_status notifyFail pendingDepStore "Y" TaskStatus.done).2.2.1 _ rfl
  refine ⟨rfl, h.1, h.2.1, ?_⟩
  have := h.2.2
  simpa [mkTask] using this

/-- C10 (amended): the gate never inspects the target task's own current
status. For a task present in the store that is not its own dependency,
rewriting its status to any value leaves `dependencies_complete` unchanged,
and when every dependency id resolves to a done task in the store the gate
succeeds and writes `in_progress` (resp. `done`) whatever the current
status — including when it is already done or blocked. A dependency id
absent from the store, however, blocks the gate. -/
theorem C10_own_status_ignored (store : List TestTask) (i : String) (t : TestTask)
    (s : TaskStatus) (h : getTask store i = some t) (hself : i ∉ t.dependencies) :
    (TaskDependencies.dependencies_complete (setStatus store i s) i =
      TaskDependencies.dependencies_complete store i) ∧
    ((∀ d ∈ t.dependencies, resolvesDone store d) →
      TaskDependencies.mark_in_progress_if_ready (setStatus store i s) i =
        (setStatus (setStatus store i s) i TaskStatus.in_progress, true) ∧
      TaskDependencies.complete_task (setStatus store i s) i =
        (setStatus (setStatus store i s) i TaskStatus.done, true)) := by
  have hget : getTask (setStatus store i s) i = some { t with status := s } :=
    getTask_setStatus_self store i s t h
  have hdeps_eq : ∀ d ∈ t.dependencies,
      getTask (setStatus store i s) d = getTask store d := by
    intro d hd
    have : d ≠ i := fun hc => hself (hc ▸ hd)
    exact getTask_setStatus_ne store i d s this
  have hcomplete_eq : TaskDependencies.dependencies_complete (setStatus store i s) i =
      TaskDependencies.dependencies_complete store i := by
    rw [dependencies_complete_of_getTask_some (setStatus store i s) i _ hget,
      dependencies_complete_of_getTask_some store i t h]
    have : ({ t with status := s } : TestTask).dependencies = t.dependencies := rfl
    rw [this]
    congr 1
    refine list_all_congr _ _ _ ?_
    intro d hd
    rw [hdeps_eq d hd]
  refine ⟨hcomplete_eq, ?_⟩
  intro hgood
  have hgood2 : ∀ d ∈ ({ t with status := s } : TestTask).dependencies,
      resolvesDone (setStatus store i s) d := by
    intro d hd
    have hd' : d ∈ t.dependencies := hd
    obtain ⟨u, hu, hus⟩ := hgood d hd'
    exact ⟨u, (hdeps_eq d hd').symm ▸ hu, hus⟩
  have hdc : TaskDependencies.dependencies_complete (setStatus store i s) i = some true :=
    (dependencies_complete_true_iff (setStatus store i s) i _ hget).mpr hgood2
  constructor
  · simp [TaskDependencies.mark_in_progress_if_ready, hget, hdc]
  · simp [TaskDependencies.complete_task, hget, hdc]

/-- C10 counterexample: the blocked task `X` has every in-store dependency
done (it has none in the store: its only dependency id is absent), so the
claim asserts `startIfReady` succeeds and moves it back to `in_progress`;
the code returns false and leaves the store unchanged. -/
theorem C10_counterexample :
    getTask ghostBlockedStore "ghost" = none ∧
    getTask ghostBlockedStore "X" =
      some (mkTask "X" TestType.unit ["ghost"] TaskStatus.blocked) ∧
    TaskDependencies.mark_in_progress_if_ready ghostBlockedStore "X" =
      (ghostBlockedStore, false) ∧
    DependencyResolver.start_if_ready notifyOk ghostBlockedStore "X" =
      ⟨ghostBlockedStore, false, [], []⟩ :=
  ⟨rfl, rfl, rfl, rfl⟩

theorem C10_witness :
    getTask doneDepStore "X" =
      some (mkTask "X" TestType.integration ["Y"] TaskStatus.pending) ∧
    "X" ∉ (mkTask "X" TestType.integration ["Y"] TaskStatus.pending).dependencies ∧
    TaskDependencies.mark_in_progress_if_ready (setStatus doneDepStore "X" TaskStatus.done) "X" =
      (setStatus (setStatus doneDepStore "X" TaskStatus.done) "X" TaskStatus.in_progress, true) := by
  have ht : getTask doneDepStore "X" =
      some (mkTask "X" TestType.integration ["Y"] TaskStatus.pending) := rfl
  have hself : "X" ∉ (mkTask "X" TestType.integration ["Y"] TaskStatus.pending).dependencies := by
    decide
  have hdeps : ∀ d ∈ (mkTask "X" TestType.integration ["Y"] TaskStatus.pending).dependencies,
      resolvesDone doneDepStore d := by
    intro d hd
    have hdY : d = "Y" := by simpa [mkTask] using hd
    subst hdY
    exact ⟨mkTask "Y" TestType.unit [] TaskStatus.done, rfl, rfl⟩
  exact ⟨ht, hself,
    ((C10_own_status_ignored doneDepStore "X" _ TaskStatus.done ht hself).2 hdeps).1⟩

theorem setStatus_get? (store : List TestTask) (i : String) (s : TaskStatus) :
    ∀ j : Nat,
      ((setStatus store i s).get? j = store.get? j) ∨
      (∃ t, store.get? j = some t ∧ getTask store i = some t ∧
        (setStatus store i s).get? j = some { t with status := s }) := by
  induction store with
  | nil => intro j; left; rfl
  | cons t ts ih =>
    intro j
    by_cases ht : t.id == i
    · rw [setStatus_cons, if_pos ht]
      cases j with
      | zero =>
        right
        exact ⟨t, rfl, by rw [getTask_cons, if_pos ht], rfl⟩
      | succ j => left; rfl
    · rw [setStatus_cons, if_neg (by simpa using ht)]
      cases j with
      | zero => left; rfl
      | succ j =>
        rcases ih j with hL | ⟨u, h1, h2, h3⟩
        · left; exact hL
        · right
          refine ⟨u, h1, ?_, h3⟩
          rw [getTask_cons, if_neg (by simpa using ht)]
          exact h2

theorem applyGate_status_change (op : GateOp) (store : List TestTask) :
    ∀ (j : Nat) (t t2 : TestTask),
      store.get? j = some t → (applyGate op store).get? j = some t2 →
      t2.status ≠ t.status →
      ∀ d ∈ t.dependencies,
        ∀ u, getTask store d = some u → u.status = TaskStatus.done := by
  have main : ∀ (i : String) (tgt : TaskStatus),
      applyGate op store =
        (match getTask store i with
         | none => (store, false)
         | some _ =>
           match TaskDependencies.dependencies_complete store i with
           | some true => (setStatus store i tgt, true)
           | _ => (store, false)).1 →
      ∀ (j : Nat) (t t2 : TestTask),
        store.get? j = some t → (applyGate op store).get? j = some t2 →
        t2.status ≠ t.status →
        ∀ d ∈ t.dependencies,
          ∀ u, getTask store d = some u → u.status = TaskStatus.done := by
    intro i tgt hres j t t2 hjt hjt2 hchange d hd u hu
    cases hg : getTask store i with
    | none =>
      rw [hg] at hres
      simp only at hres
      rw [hres, hjt] at hjt2
      cases Option.some_inj.mp hjt2
      exact absurd rfl hchange
    | some w =>
      rw [hg] at hres
      cases hdc : TaskDependencies.dependencies_complete store i with
      | none =>
        rw [hdc] at hres
        simp only at hres
        rw [hres, hjt] at hjt2
        cases Option.some_inj.mp hjt2
        exact absurd rfl hchange
      | some b =>
        cases b with
        | false =>
          rw [hdc] at hres
          simp only at hres
          rw [hres, hjt] at hjt2
          cases Option.some_inj.mp hjt2
          exact absurd rfl hchange
        | true =>
          rw [hdc] at hres
          simp only at hres
          rw [hres] at hjt2
          rcases setStatus_get? store i tgt j with hL | ⟨v, hv1, hv2, hv3⟩
          · rw [hL, hjt] at hjt2
            cases Option.some_inj.mp hjt2
            exact absurd rfl hchange
          · rw [hjt] at hv1
            cases Option.some_inj.mp hv1
            rw [hg] at hv2
            cases Option.some_inj.mp hv2
            have hgood := (dependencies_complete_true_iff store i t hg).mp hdc
            obtain ⟨x, hx, hxs⟩ := hgood d hd
            rw [hu] at hx
            cases Option.some_inj.mp hx
            exact hxs
  cases op with
  | start i =>
    exact main i TaskStatus.in_progress
      (by simp only [applyGate, TaskDependencies.mark_in_progress_if_ready])
  | complete i =>
    exact main i TaskStatus.done
      (by simp only [applyGate, TaskDependencies.complete_task])

/-- C7 (amended): across every sequence of the gated status-writing
operations (`startIfReady`, `completeIfReady`), one further gated call never
changes a task's status — and the gate writes only `in_progress` or `done` —
while some dependency id of that task resolving in the store has status
different from done. The administrative `updateStatus` override is exempt:
it bypasses the gate by design. -/
theorem C7_gate_invariant_amended (ops : List GateOp) (store0 : List TestTask)
    (op : GateOp) :
    ∀ (j : Nat) (t t2 : TestTask),
      (runGate ops store0).get? j = some t →
      (applyGate op (runGate ops store0)).get? j = some t2 →
      t2.status ≠ t.status →
      ∀ d ∈ t.dependencies,
        ∀ u, getTask (runGate ops store0) d = some u → u.status = TaskStatus.done :=
  applyGate_status_change op (runGate ops store0)

/-- C7 counterexample: a single step of the status-writing operation
`updateStatus` moves `X` to done while its dependency `Y` is present in the
store with status pending, so the claimed invariant fails for sequences that
include `updateStatus`. -/
theorem C7_counterexample :
    "Y" ∈ (mkTask "X" TestType.integration ["Y"] TaskStatus.pending).dependencies ∧
    getTask pendingDepStore "X" =
      some (mkTask "X" TestType.integration ["Y"] TaskStatus.pending) ∧
    getTask pendingDepStore "Y" =
      some (mkTask "Y" TestType.unit [] TaskStatus.pending) ∧
    (mkTask "Y" TestType.unit [] TaskStatus.pending).status ≠ TaskStatus.done ∧
    getTask (TaskStatusManager.update_status notifyOk pendingDepStore "X" TaskStatus.done).store "X" =
      some (mkTask "X" TestType.integration ["Y"] TaskStatus.done) := by
  refine ⟨by decide, rfl, rfl, by decide, rfl⟩

theorem C7_witness :
    (runGate [] doneDepStore).get? 1 =
      some (mkTask "X" TestType.integration ["Y"] TaskStatus.pending) ∧
    (applyGate (GateOp.start "X") (runGate [] doneDepStore)).get? 1 =
      some (mkTask "X" TestType.integration ["Y"] TaskStatus.in_progress) ∧
    (∀ d ∈ (mkTask "X" TestType.integration ["Y"] TaskStatus.pending).dependencies,
      ∀ u, getTask (runGate [] doneDepStore) d = some u → u.status = TaskStatus.done) :=
  ⟨rfl, rfl,
   C7_gate_invariant_amended [] doneDepStore (GateOp.start "X") 1
     (mkTask "X" TestType.integration ["Y"] TaskStatus.pending)
     (mkTask "X" TestType.integration ["Y"] TaskStatus.in_progress)
     rfl rfl (by decide)⟩

/-! Stability of the descending sort: filtering one key class commutes with
sorting, which pins down the stable order among equal keys. -/

theorem keyFilter_orderedInsert {α : Type} (key : α → Int) (k : Int) (a : α)
    (l : List α) :
    (List.orderedInsert (descBy key) a l).filter (fun b => key b == k) =
    (a :: l).filter (fun b => key b == k) := by
  induction l with
  | nil => rfl
  | cons b l ih =>
    by_cases hr : descBy key a b
    · rw [List.orderedInsert, if_pos hr]
    · rw [List.orderedInsert, if_neg hr]
      have hab : key a < key b := not_le.mp hr
      rw [List.filter_cons, ih, List.filter_cons, List.filter_cons]
      by_cases hka : (key a == k) = true <;> by_cases hkb : (key b == k) = true
      · exfalso
        rw [beq_iff_eq] at hka hkb
        exact absurd (hka.trans hkb.symm) (ne_of_lt hab)
      · simp [hka, hkb]
      · simp [hka, hkb]
      · simp [hka, hkb]

theorem keyFilter_sortedDescBy {α : Type} (key : α → Int) (k : Int) (l : List α) :
    (sortedDescBy key l).filter (fun b => key b == k) =
    l.filter (fun b => key b == k) := by
  induction l with
  | nil => rfl
  | cons a l ih =>
    rw [show sortedDescBy key (a :: l) =
        List.orderedInsert (descBy key) a (sortedDescBy key l) from rfl]
    rw [keyFilter_orderedInsert, List.filter_cons, ih, List.filter_cons]

theorem sorted_sortedDescBy {α : Type} (key : α → Int) (l : List α) :
    (sortedDescBy key l).Sorted (descBy key) :=
  List.sorted_insertionSort (descBy key) l

theorem perm_sortedDescBy {α : Type} (key : α → Int) (l : List α) :
    (sortedDescBy key l).Perm l :=
  List.perm_insertionSort (descBy key) l

/-- Bridge between the executable `_is_missing` and its claim-side reading. -/
theorem is_missing_iff (t : TestTask) :
    CoverageAnalyzer.is_missing t = true ↔ MissingSpec t := by
  obtain ⟨i, ds, ty, dep, st, ow, cov⟩ := t
  cases cov with
  | enum c =>
    cases c <;> simp [CoverageAnalyzer.is_missing, MissingSpec]
  | text s =>
    simp only [CoverageAnalyzer.is_missing, MissingSpec, Bool.or_eq_true, beq_iff_eq,
      CovVal.text.injEq]
    constructor
    · intro h
      refine Or.inr ⟨s, rfl, ?_⟩
      tauto
    · rintro (h | ⟨s2, hs2, h⟩)
      · cases h
      · cases hs2
        tauto

/-- C9 (confirmed): `prioritize_tests` returns exactly the tasks whose
coverage value matches the normalized missing predicate (the enum `MISSING`,
or free text normalizing to one of the three accepted spellings), as a
permutation of the missing-filtered input that is descending in category
priority and stable: within each priority value the original filtered order
is kept. In particular no task whose coverage is not missing ever appears. -/
theorem C9_prioritize_tests (ts : List TestTask) :
    (CoverageAnalyzer.prioritize_tests ts).Perm (ts.filter CoverageAnalyzer.is_missing) ∧
    (∀ t, t ∈ CoverageAnalyzer.prioritize_tests ts ↔ t ∈ ts ∧ MissingSpec t) ∧
    (CoverageAnalyzer.prioritize_tests ts).Pairwise
      (fun a b => CoverageAnalyzer.TEST_TYPE_PRIORITY b.test_type ≤
        CoverageAnalyzer.TEST_TYPE_PRIORITY a.test_type) ∧
    (∀ k : Int,
      (CoverageAnalyzer.prioritize_tests ts).filter
        (fun t => CoverageAnalyzer.TEST_TYPE_PRIORITY t.test_type == k) =
      (ts.filter CoverageAnalyzer.is_missing).filter
        (fun t => CoverageAnalyzer.TEST_TYPE_PRIORITY t.test_type == k)) ∧
    (∀ t ∈ CoverageAnalyzer.prioritize_tests ts,
      CoverageAnalyzer.is_missing t = true) := by
  have hperm : (CoverageAnalyzer.prioritize_tests ts).Perm
      (ts.filter CoverageAnalyzer.is_missing) :=
    perm_sortedDescBy _ (CoverageAnalyzer.find_missing_coverage ts)
  have hmem : ∀ t, t ∈ CoverageAnalyzer.prioritize_tests ts ↔
      t ∈ ts ∧ CoverageAnalyzer.is_missing t = true := by
    intro t
    rw [hperm.mem_iff, List.mem_filter]
  refine ⟨hperm, ?_, ?_, ?_, ?_⟩
  · intro t
    rw [hmem t, is_missing_iff t]
  · exact sorted_sortedDescBy _ (CoverageAnalyzer.find_missing_coverage ts)
  · intro k
    exact keyFilter_sortedDescBy _ k (CoverageAnalyzer.find_missing_coverage ts)
  · intro t ht
    exact ((hmem t).mp ht).2

theorem C9_witness :
    CoverageAnalyzer.prioritize_tests [covP, covQ, covR] = [covQ, covR] ∧
    covQ ∈ CoverageAnalyzer.prioritize_tests [covP, covQ, covR] ∧
    covQ ∈ [covP, covQ, covR] ∧ MissingSpec covQ ∧
    covP ∉ CoverageAnalyzer.prioritize_tests [covP, covQ, covR] := by
  have hq := ((C9_prioritize_tests [covP, covQ, covR]).2.1 covQ).mp (by decide)
  exact ⟨by decide, by decide, hq.1, hq.2, by decide⟩

/-! List auxiliaries for the wave-loop proofs. -/

theorem any_id_iff_mem_ids (l : List TestTask) (d : String) :
    ((l.any (fun u => u.id == d)) = true) ↔ d ∈ ids l := by
  simp [ids, List.any_eq_true, List.mem_map]

theorem filter_length_partition {α : Type} (l : List α) (p q : α → Bool) :
    (l.filter (fun x => p x && !q x)).length + (l.filter (fun x => p x && q x)).length
      = (l.filter p).length := by
  induction l with
  | nil => rfl
  | cons a l ih =>
    by_cases hp : p a = true <;> by_cases hq : q a = true <;>
      simp [List.filter_cons, hp, hq] <;> omega

theorem filter_beq_length (l : List String) (p : String → Bool) (a : String)
    (hpa : p a = true) :
    (l.filter (fun d => p d && (a == d))).length = l.count a := by
  induction l with
  | nil => rfl
  | cons d l ih =>
    by_cases hd : d = a
    · subst hd
      simp [List.filter_cons, hpa, List.count_cons, ih]
    · have h1 : (a == d) = false := by
        simp
        exact fun hc => hd hc.symm
      have h2 : (d == a) = false := by simpa using hd
      simp [List.filter_cons, h1, h2, List.count_cons, ih]

theorem countP_lt_length_of_mem {α : Type} {l : List α} {a : α} (p : α → Bool)
    (ha : a ∈ l) (hpa : p a = false) : l.countP p < l.length := by
  induction l with
  | nil => cases ha
  | cons b l ih =>
    rcases List.mem_cons.mp ha with rfl | hb
    · rw [List.countP_cons, hpa]
      simp
      exact Nat.lt_succ_of_le (List.countP_le_length p)
    · rw [List.countP_cons]
      by_cases hpb : p b = true
      · rw [hpb]
        simp
        exact ih hb
      · rw [Bool.eq_false_iff.mpr hpb]
        simp
        exact Nat.lt_succ_of_lt (ih hb)

theorem allDeps_iff_unemitted_zero (ts acc : List TestTask) (t : TestTask) :
    allDepsEmitted ts acc t = true ↔ unemittedDeps ts acc t = 0 := by
  unfold allDepsEmitted unemittedDeps
  rw [List.length_eq_zero, List.filter_eq_nil_iff, List.all_eq_true]
  constructor
  · intro h d hd hcond
    rw [Bool.and_eq_true] at hcond
    have h2 := hcond.2
    rw [h d (List.mem_filter.mpr ⟨hd, hcond.1⟩)] at h2
    cases h2
  · intro h d hd
    obtain ⟨hd1, hd2⟩ := List.mem_filter.mp hd
    by_contra hany
    refine h d hd1 ?_
    rw [Bool.and_eq_true]
    refine ⟨hd2, ?_⟩
    cases hval : acc.any (fun u => u.id == d) with
    | true => exact absurd hval hany
    | false => rfl

theorem allDeps_mono (ts acc ext : List TestTask) (t : TestTask)
    (h : allDepsEmitted ts acc t = true) :
    allDepsEmitted ts (acc ++ ext) t = true := by
  unfold allDepsEmitted at h ⊢
  rw [List.all_eq_true] at h ⊢
  intro d hd
  have := h d hd
  rw [List.any_append, this]
  rfl

theorem unemitted_aux (ts acc : List TestTask) (c : TestTask)
    (hin : inSet ts c.id = true) (hnotin : c.id ∉ ids acc) :
    ∀ deps : List String,
      (deps.filter (fun d => inSet ts d && !((acc ++ [c]).any (fun u => u.id == d)))).length
        + deps.count c.id
      = (deps.filter (fun d => inSet ts d && !(acc.any (fun u => u.id == d)))).length := by
  intro deps
  induction deps with
  | nil => rfl
  | cons d deps ih =>
    rw [List.count_cons, List.filter_cons, List.filter_cons]
    by_cases hdc : d = c.id
    · subst hdc
      have hnew : (inSet ts c.id && !((acc ++ [c]).any (fun u => u.id == c.id))) = false := by
        rw [List.any_append]
        have h1 : ([c].any (fun u => u.id == c.id)) = true := by simp
        rw [h1]
        simp
      have hold : (inSet ts c.id && !(acc.any (fun u => u.id == c.id))) = true := by
        rw [Bool.and_eq_true]
        refine ⟨hin, ?_⟩
        cases hval : acc.any (fun u => u.id == c.id) with
        | true => exact absurd ((any_id_iff_mem_ids acc _).mp hval) hnotin
        | false => rfl
      rw [hnew, hold]
      simp
      simp at ih
      omega
    · have h1 : ([c].any (fun u => u.id == d)) = false := by
        simp
        exact fun hc => hdc hc.symm
      have heq : (inSet ts d && !((acc ++ [c]).any (fun u => u.id == d)))
          = (inSet ts d && !(acc.any (fun u => u.id == d))) := by
        rw [List.any_append, h1]
        simp
      rw [heq]
      have hcnt : (if d == c.id then (1 : Nat) else 0) = 0 := by simp [hdc]
      rw [hcnt]
      cases hpv : (inSet ts d && !(acc.any (fun u => u.id == d))) with
      | true => simp; simp at ih; omega
      | false => simp; simp at ih; omega

theorem unemitted_append_one (ts acc : List TestTask) (c t : TestTask)
    (hin : inSet ts c.id = true) (hnotin : c.id ∉ ids acc) :
    unemittedDeps ts (acc ++ [c]) t + t.dependencies.count c.id
      = unemittedDeps ts acc t := by
  unfold unemittedDeps
  exact unemitted_aux ts acc c hin hnotin t.dependencies

theorem mem_graphSucc (ts : List TestTask) (cid x : String)
    (h : x ∈ graphSucc ts cid) : x ∈ ids ts := by
  unfold graphSucc at h
  rw [List.mem_flatten] at h
  obtain ⟨blk, hblk, hx⟩ := h
  rw [List.mem_map] at hblk
  obtain ⟨u, hu, rfl⟩ := hblk
  have := List.eq_of_mem_replicate hx
  subst this
  exact List.mem_map.mpr ⟨u, hu, rfl⟩

theorem graphSucc_cons (u : TestTask) (ts : List TestTask) (cid : String) :
    graphSucc (u :: ts) cid
      = List.replicate (u.dependencies.count cid) u.id ++ graphSucc ts cid := rfl

theorem nodup_ids_head_notin (u : TestTask) (ts : List TestTask)
    (hnd : (ids (u :: ts)).Nodup) : u.id ∉ ids ts := by
  have : ids (u :: ts) = u.id :: ids ts := rfl
  rw [this] at hnd
  exact (List.nodup_cons.mp hnd).1

theorem nodup_ids_tail (u : TestTask) (ts : List TestTask)
    (hnd : (ids (u :: ts)).Nodup) : (ids ts).Nodup := by
  have : ids (u :: ts) = u.id :: ids ts := rfl
  rw [this] at hnd
  exact (List.nodup_cons.mp hnd).2

theorem count_graphSucc_of_mem (ts : List TestTask) (hnd : (ids ts).Nodup)
    (cid : String) (t : TestTask) (ht : t ∈ ts) :
    (graphSucc ts cid).count t.id = t.dependencies.count cid := by
  induction ts with
  | nil => cases ht
  | cons u ts ih =>
    rw [graphSucc_cons, List.count_append, List.count_replicate]
    rcases List.mem_cons.mp ht with rfl | hts
    · simp only [beq_self_eq_true, if_true]
      have hzero : (graphSucc ts cid).count t.id = 0 := by
        rw [List.count_eq_zero]
        intro hmem
        exact nodup_ids_head_notin t ts hnd (mem_graphSucc ts cid t.id hmem)
      omega
    · have hne : (u.id == t.id) = false := by
        rw [beq_eq_false_iff_ne]
        intro hc
        exact nodup_ids_head_notin u ts hnd (hc ▸ List.mem_map.mpr ⟨t, hts, rfl⟩)
      rw [hne, if_neg (by simp)]
      rw [ih (nodup_ids_tail u ts hnd) hts]
      omega

theorem count_graphSucc_of_notin (ts : List TestTask) (cid x : String)
    (hx : x ∉ ids ts) : (graphSucc ts cid).count x = 0 := by
  rw [List.count_eq_zero]
  intro hmem
  exact hx (mem_graphSucc ts cid x hmem)

theorem find_self (ts : List TestTask) (hnd : (ids ts).Nodup) (t : TestTask)
    (ht : t ∈ ts) : ts.find? (fun u => u.id == t.id) = some t := by
  induction ts with
  | nil => cases ht
  | cons u ts ih =>
    rcases List.mem_cons.mp ht with rfl | hts
    · rw [List.find?_cons_of_pos _ (by simp)]
    · have hne : (u.id == t.id) = false := by
        rw [beq_eq_false_iff_ne]
        intro hc
        exact nodup_ids_head_notin u ts hnd (hc ▸ List.mem_map.mpr ⟨t, hts, rfl⟩)
      rw [List.find?_cons_of_neg _ (by simp [hne])]
      exact ih (nodup_ids_tail u ts hnd) hts

theorem foldl_dictInsert_eq (ts : List TestTask) :
    ∀ acc, (ids (acc ++ ts)).Nodup → List.foldl dictInsert acc ts = acc ++ ts := by
  induction ts with
  | nil => intro acc _; simp
  | cons t ts ih =>
    intro acc h
    have hid : ids (acc ++ t :: ts) = ids acc ++ ids (t :: ts) := by
      simp [ids]
    rw [hid] at h
    obtain ⟨_, _, hdisj⟩ := List.nodup_append.mp h
    have hnotin : ¬ (acc.any (fun u => u.id == t.id)) = true := by
      rw [any_id_iff_mem_ids]
      intro hc
      exact hdisj hc (by simp [ids])
    have hins : dictInsert acc t = acc ++ [t] := by
      rw [dictInsert, if_neg hnotin]
    rw [List.foldl_cons, hins, ih (acc ++ [t]) (by simpa [ids] using h)]
    simp

theorem tasksById_eq_self (ts : List TestTask) (hnd : (ids ts).Nodup) :
    tasksById ts = ts := by
  have := foldl_dictInsert_eq ts [] (by simpa using hnd)
  simpa [tasksById] using this

/-! Characterization of the inner neighbor-processing loop. -/

theorem upd_self (f : String → Int) (k : String) (v : Int) : upd f k v k = v := by
  simp [upd]

theorem upd_other (f : String → Int) (k x : String) (v : Int) (h : x ≠ k) :
    upd f k v x = f x := by
  simp [upd, h]

theorem processNeighbors_nil (ts : List TestTask) (indeg : String → Int)
    (newly : List TestTask) :
    processNeighbors ts [] indeg newly = (indeg, newly) := rfl

theorem processNeighbors_cons (ts : List TestTask) (n : String) (rest : List String)
    (indeg : String → Int) (newly : List TestTask) :
    processNeighbors ts (n :: rest) indeg newly =
      processNeighbors ts rest (upd indeg n (indeg n - 1))
        (if (upd indeg n (indeg n - 1)) n == 0 then
          newly ++ [((ts.find? (fun t => t.id == n)).getD arbitraryTask)]
        else newly) := rfl

theorem processNeighbors_fst (ts : List TestTask) :
    ∀ (ns : List String) (indeg : String → Int) (newly : List TestTask) (x : String),
      (processNeighbors ts ns indeg newly).1 x = indeg x - (ns.count x : Int) := by
  intro ns
  induction ns with
  | nil => intro indeg newly x; simp [processNeighbors_nil]
  | cons n rest ih =>
    intro indeg newly x
    rw [processNeighbors_cons, ih]
    rw [List.count_cons]
    by_cases hx : x = n
    · subst hx
      rw [upd_self]
      simp only [beq_self_eq_true, if_true]
      push_cast
      omega
    · rw [upd_other indeg n x _ hx]
      have : (n == x) = false := by
        rw [beq_eq_false_iff_ne]
        exact fun hc => hx hc.symm
      rw [this]
      simp

theorem processNeighbors_snd_append (ts : List TestTask) :
    ∀ (ns : List String) (indeg : String → Int) (newly : List TestTask),
      (processNeighbors ts ns indeg newly).2
        = newly ++ (processNeighbors ts ns indeg []).2 := by
  intro ns
  induction ns with
  | nil => intro indeg newly; simp [processNeighbors_nil]
  | cons n rest ih =>
    intro indeg newly
    rw [processNeighbors_cons, processNeighbors_cons]
    by_cases hc : ((upd indeg n (indeg n - 1)) n == 0) = true
    · rw [if_pos hc, if_pos hc]
      rw [ih _ (newly ++ [_]), ih _ ([] ++ [_])]
      simp
    · rw [if_neg hc, if_neg hc]
      exact ih _ newly

theorem processNeighbors_append (ts : List TestTask) :
    ∀ (ns1 ns2 : List String) (indeg : String → Int) (newly : List TestTask),
      processNeighbors ts (ns1 ++ ns2) indeg newly =
        processNeighbors ts ns2 (processNeighbors ts ns1 indeg newly).1
          (processNeighbors ts ns1 indeg newly).2 := by
  intro ns1
  induction ns1 with
  | nil => intro ns2 indeg newly; rfl
  | cons n rest ih =>
    intro ns2 indeg newly
    rw [List.cons_append, processNeighbors_cons, processNeighbors_cons, ih]

theorem processNeighbors_replicate (ts : List TestTask) (n : String) :
    ∀ (m : Nat) (indeg : String → Int),
      (processNeighbors ts (List.replicate m n) indeg []).2
        = if 1 ≤ indeg n ∧ indeg n ≤ (m : Int) then
            [((ts.find? (fun t => t.id == n)).getD arbitraryTask)]
          else [] := by
  intro m
  induction m with
  | zero =>
    intro indeg
    rw [List.replicate_zero, processNeighbors_nil]
    rw [if_neg (by omega)]
  | succ m ih =>
    intro indeg
    rw [List.replicate_succ, processNeighbors_cons]
    have hupd : (upd indeg n (indeg n - 1)) n = indeg n - 1 := upd_self _ _ _
    by_cases h1 : indeg n = 1
    · have hcond : ((upd indeg n (indeg n - 1)) n == 0) = true := by
        rw [hupd, h1]
        rfl
      rw [if_pos hcond]
      rw [processNeighbors_snd_append, ih]
      have hnot : ¬ (1 ≤ (upd indeg n (indeg n - 1)) n ∧
          (upd indeg n (indeg n - 1)) n ≤ (m : Int)) := by
        rw [hupd, h1]
        omega
      rw [if_neg hnot, if_pos (by omega)]
      simp
    · have hcond : ((upd indeg n (indeg n - 1)) n == 0) = false := by
        rw [hupd]
        have : ¬ (indeg n - 1 = 0) := by omega
        simpa using this
      rw [if_neg (by simp [hcond]), ih]
      by_cases h2 : 1 ≤ indeg n ∧ indeg n ≤ (m : Int) + 1
      · have h3 : 1 ≤ (upd indeg n (indeg n - 1)) n ∧
            (upd indeg n (indeg n - 1)) n ≤ (m : Int) := by
          rw [hupd]; omega
        rw [if_pos h3, if_pos (by push_cast; omega)]
      · have h3 : ¬ (1 ≤ (upd indeg n (indeg n - 1)) n ∧
            (upd indeg n (indeg n - 1)) n ≤ (m : Int)) := by
          rw [hupd]
          push_cast at h2
          omega
        rw [if_neg h3, if_neg (by push_cast at h2 ⊢; omega)]

theorem processNeighbors_graphSucc (full : List TestTask) (cid : String)
    (hfind : ∀ u ∈ full, full.find? (fun t => t.id == u.id) = some u) :
    ∀ (tss : List TestTask) (indeg : String → Int),
      (ids tss).Nodup →
      (∀ u ∈ tss, u ∈ full) →
      (∀ u ∈ tss, (u.dependencies.count cid : Int) ≤ indeg u.id) →
      (processNeighbors full (graphSucc tss cid) indeg []).2 =
        tss.filter (fun v => decide (1 ≤ v.dependencies.count cid) &&
          (indeg v.id == (v.dependencies.count cid : Int))) := by
  intro tss
  induction tss with
  | nil => intro indeg _ _ _; rfl
  | cons u tss ih =>
    intro indeg hnd hsub hle
    rw [graphSucc_cons, processNeighbors_append]
    have hmu : u ∈ u :: tss := by simp
    have hset : ((full.find? (fun t => t.id == u.id)).getD arbitraryTask) = u := by
      rw [hfind u (hsub u hmu)]
      rfl
    have hsnd1 : (processNeighbors full
        (List.replicate (u.dependencies.count cid) u.id) indeg []).2
        = if 1 ≤ indeg u.id ∧ indeg u.id ≤ ((u.dependencies.count cid : Nat) : Int)
          then [u] else [] := by
      rw [processNeighbors_replicate, hset]
    have hfst1 : ∀ v ∈ tss,
        (processNeighbors full (List.replicate (u.dependencies.count cid) u.id)
          indeg []).1 v.id = indeg v.id := by
      intro v hv
      rw [processNeighbors_fst]
      have hne : (u.id == v.id) = false := by
        rw [beq_eq_false_iff_ne]
        intro hc
        exact nodup_ids_head_notin u tss hnd (hc ▸ List.mem_map.mpr ⟨v, hv, rfl⟩)
      rw [List.count_replicate, hne, if_neg (by simp)]
      simp
    rw [processNeighbors_snd_append, hsnd1,
      ih _ (nodup_ids_tail u tss hnd)
        (fun v hv => hsub v (List.mem_cons_of_mem u hv))
        (fun v hv => by rw [hfst1 v hv]; exact hle v (List.mem_cons_of_mem u hv))]
    have hfilter_eq : tss.filter (fun v => decide (1 ≤ v.dependencies.count cid) &&
          ((processNeighbors full (List.replicate (u.dependencies.count cid) u.id)
            indeg []).1 v.id == (v.dependencies.count cid : Int)))
        = tss.filter (fun v => decide (1 ≤ v.dependencies.count cid) &&
          (indeg v.id == (v.dependencies.count cid : Int))) := by
      apply List.filter_congr
      intro v hv
      rw [hfst1 v hv]
    rw [hfilter_eq, List.filter_cons]
    have hleu := hle u hmu
    have hpred_iff : ((decide (1 ≤ u.dependencies.count cid) &&
        (indeg u.id == (u.dependencies.count cid : Int))) = true) ↔
        (1 ≤ u.dependencies.count cid ∧ indeg u.id = ((u.dependencies.count cid : Nat) : Int)) := by
      rw [Bool.and_eq_true, decide_eq_true_iff, beq_iff_eq]
    by_cases hcase : 1 ≤ u.dependencies.count cid ∧
        indeg u.id = ((u.dependencies.count cid : Nat) : Int)
    · rw [if_pos (by omega), if_pos (hpred_iff.mpr hcase)]
      simp
    · rw [if_neg (by omega), if_neg (fun hc => hcase (hpred_iff.mp hc))]
      simp

theorem ids_append (l1 l2 : List TestTask) : ids (l1 ++ l2) = ids l1 ++ ids l2 :=
  List.map_append _ l1 l2

theorem count_filter_of_pos {α : Type} [BEq α] [LawfulBEq α] (p : α → Bool) (a : α)
    (hpa : p a = true) : ∀ l : List α, (l.filter p).count a = l.count a := by
  intro l
  induction l with
  | nil => rfl
  | cons d l ih =>
    by_cases hd : d = a
    · subst hd
      rw [List.filter_cons, hpa]
      simp [List.count_cons, ih]
    · have hda : (d == a) = false := by simpa using hd
      rw [List.filter_cons]
      cases hpd : p d <;> simp [List.count_cons, hda, ih]

theorem allDeps_imp_ids (ts acc : List TestTask) (t : TestTask)
    (h : allDepsEmitted ts acc t = true) :
    ∀ d ∈ t.dependencies, inSet ts d = true → d ∈ ids acc := by
  intro d hd hin
  unfold allDepsEmitted at h
  rw [List.all_eq_true] at h
  exact (any_id_iff_mem_ids acc d).mp (h d (List.mem_filter.mpr ⟨hd, hin⟩))

theorem append_singleton_split {α : Type} :
    ∀ (pre : List α) (t : α) (post acc : List α) (c : α),
      pre ++ t :: post = acc ++ [c] →
      (pre = acc ∧ t = c ∧ post = []) ∨
      (∃ post2, acc = pre ++ t :: post2 ∧ post = post2 ++ [c]) := by
  intro pre
  induction pre with
  | nil =>
    intro t post acc c h
    cases acc with
    | nil =>
      simp at h
      exact Or.inl ⟨rfl, h.1, h.2⟩
    | cons a acc2 =>
      simp at h
      exact Or.inr ⟨acc2, by simp [h.1], h.2⟩
  | cons p pre ih =>
    intro t post acc c h
    cases acc with
    | nil =>
      simp at h
    | cons a acc2 =>
      rw [List.cons_append, List.cons_append] at h
      injection h with h1 h2
      subst h1
      rcases ih t post acc2 c h2 with ⟨hpre, hts, hpost⟩ | ⟨post2, hacc, hpost⟩
      · exact Or.inl ⟨by rw [hpre], hts, hpost⟩
      · refine Or.inr ⟨post2, ?_, hpost⟩
        rw [hacc]
        rfl

theorem topoValid_append_one (ts acc : List TestTask) (c : TestTask)
    (htopo : TopoValid ts acc)
    (hc : ∀ d ∈ c.dependencies, inSet ts d = true → d ∈ ids acc) :
    TopoValid ts (acc ++ [c]) := by
  intro pre t post heq d hd hin
  rcases append_singleton_split pre t post acc c heq.symm with
    ⟨hpre, hts, _⟩ | ⟨post2, hacc, _⟩
  · subst hpre
    subst hts
    exact hc d hd hin
  · exact htopo pre t post2 hacc d hd hin

theorem loopInv_perm (ts : List TestTask) (indeg : String → Int)
    (ready ready2 acc : List TestTask) (hp : ready2.Perm ready)
    (hInv : LoopInv ts indeg ready acc) : LoopInv ts indeg ready2 acc := by
  refine ⟨?_, ?_, hInv.hindeg, ?_, hInv.htopo⟩
  · intro t ht
    rcases List.mem_append.mp ht with h | h
    · exact hInv.hsub t (List.mem_append.mpr (Or.inl h))
    · exact hInv.hsub t (List.mem_append.mpr (Or.inr (hp.mem_iff.mp h)))
  · have hperm : (ids (acc ++ ready2)).Perm (ids (acc ++ ready)) := by
      rw [ids_append, ids_append]
      exact (hp.map TestTask.id).append_left (ids acc)
    exact hperm.nodup_iff.mpr hInv.hnodup
  · intro t ht
    rw [← hInv.hmem t ht]
    constructor
    · rintro (h | h)
      · exact Or.inl h
      · exact Or.inr (hp.mem_iff.mp h)
    · rintro (h | h)
      · exact Or.inl h
      · exact Or.inr (hp.mem_iff.mpr h)

theorem loopInv_step (ts : List TestTask) (hts : (ids ts).Nodup)
    (indeg : String → Int) (c : TestTask) (rest acc : List TestTask)
    (hInv : LoopInv ts indeg (c :: rest) acc) :
    LoopInv ts (processNeighbors ts (graphSucc ts c.id) indeg []).1
      (rest ++ (processNeighbors ts (graphSucc ts c.id) indeg []).2)
      (acc ++ [c]) := by
  have hcready : c ∈ acc ++ c :: rest := List.mem_append.mpr (Or.inr (by simp))
  have hcts : c ∈ ts := hInv.hsub c hcready
  have hcin : inSet ts c.id = true :=
    (any_id_iff_mem_ids ts c.id).mpr (List.mem_map.mpr ⟨c, hcts, rfl⟩)
  have hnd_ar : (ids acc ++ ids (c :: rest)).Nodup := by
    have h0 := hInv.hnodup
    rwa [ids_append] at h0
  obtain ⟨hndacc, hndcr, hdisj⟩ := List.nodup_append.mp hnd_ar
  have hcnotacc : c.id ∉ ids acc := fun hc => hdisj hc (by simp [ids])
  have hle : ∀ u ∈ ts, (u.dependencies.count c.id : Int) ≤ indeg u.id := by
    intro u hu
    rw [hInv.hindeg u hu]
    have hq : (inSet ts c.id && !(acc.any (fun w => w.id == c.id))) = true := by
      rw [Bool.and_eq_true]
      refine ⟨hcin, ?_⟩
      cases hval : acc.any (fun w => w.id == c.id) with
      | true => exact absurd ((any_id_iff_mem_ids acc _).mp hval) hcnotacc
      | false => rfl
    have h1 : u.dependencies.count c.id =
        (u.dependencies.filter
          (fun d => inSet ts d && !(acc.any (fun w => w.id == d)))).count c.id :=
      (count_filter_of_pos _ c.id hq u.dependencies).symm
    have h2 := List.count_le_length c.id
      (u.dependencies.filter (fun d => inSet ts d && !(acc.any (fun w => w.id == d))))
    unfold unemittedDeps
    omega
  have hfind : ∀ u ∈ ts, ts.find? (fun t => t.id == u.id) = some u :=
    fun u hu => find_self ts hts u hu
  have hnewly : (processNeighbors ts (graphSucc ts c.id) indeg []).2
      = ts.filter (fun v => decide (1 ≤ v.dependencies.count c.id) &&
          (indeg v.id == (v.dependencies.count c.id : Int))) :=
    processNeighbors_graphSucc ts c.id hfind ts indeg hts (fun u hu => hu) hle
  have hNmem : ∀ v, v ∈ (processNeighbors ts (graphSucc ts c.id) indeg []).2 ↔
      (v ∈ ts ∧ 1 ≤ v.dependencies.count c.id ∧
        indeg v.id = (v.dependencies.count c.id : Int)) := by
    intro v
    rw [hnewly, List.mem_filter, Bool.and_eq_true, decide_eq_true_iff, beq_iff_eq]
  have huneq : ∀ t : TestTask,
      unemittedDeps ts (acc ++ [c]) t + t.dependencies.count c.id
        = unemittedDeps ts acc t :=
    fun t => unemitted_append_one ts acc c t hcin hcnotacc
  have hinj : ∀ u ∈ ts, ∀ v ∈ ts, u.id = v.id → u = v :=
    List.inj_on_of_nodup_map hts
  have hcall : allDepsEmitted ts acc c = true :=
    (hInv.hmem c hcts).mp (Or.inr (by simp))
  have hNnotold : ∀ v ∈ (processNeighbors ts (graphSucc ts c.id) indeg []).2,
      ¬ (v ∈ acc ∨ v ∈ c :: rest) := by
    intro v hv hcontra
    obtain ⟨hvts, hge1, hveq⟩ := (hNmem v).mp hv
    have hall := (hInv.hmem v hvts).mp hcontra
    rw [allDeps_iff_unemitted_zero] at hall
    have hidg := hInv.hindeg v hvts
    omega
  refine ⟨?_, ?_, ?_, ?_, ?_⟩
  · intro t ht
    rcases List.mem_append.mp ht with h1 | h2
    · rcases List.mem_append.mp h1 with ha | hc1
      · exact hInv.hsub t (List.mem_append.mpr (Or.inl ha))
      · have : t = c := by simpa using hc1
        exact this ▸ hcts
    · rcases List.mem_append.mp h2 with hr | hN
      · exact hInv.hsub t (List.mem_append.mpr (Or.inr (List.mem_cons_of_mem c hr)))
      · exact ((hNmem t).mp hN).1
  · have hlist : (acc ++ [c]) ++ (rest ++ (processNeighbors ts (graphSucc ts c.id) indeg []).2)
        = (acc ++ c :: rest) ++ (processNeighbors ts (graphSucc ts c.id) indeg []).2 := by
      simp
    rw [hlist, ids_append, List.nodup_append]
    refine ⟨hInv.hnodup, ?_, ?_⟩
    · rw [hnewly]
      have hsl := (@List.filter_sublist TestTask
        (fun v => decide (1 ≤ v.dependencies.count c.id) &&
          (indeg v.id == (v.dependencies.count c.id : Int))) ts).map TestTask.id
      exact hts.sublist hsl
    · intro x hx1 hx2
      obtain ⟨v, hvN, hvid⟩ := List.mem_map.mp hx2
      obtain ⟨w, hw, hwid⟩ := List.mem_map.mp hx1
      have hwts : w ∈ ts := hInv.hsub w hw
      have hvts : v ∈ ts := ((hNmem v).mp hvN).1
      have hwv : w = v := hinj w hwts v hvts (hwid.trans hvid.symm)
      subst hwv
      exact hNnotold w hvN (List.mem_append.mp hw)
  · intro t ht
    rw [processNeighbors_fst, count_graphSucc_of_mem ts hts c.id t ht]
    have h1 := hInv.hindeg t ht
    have h2 := huneq t
    omega
  · intro t ht
    constructor
    · rintro (h1 | h2)
      · rcases List.mem_append.mp h1 with ha | hc1
        · exact allDeps_mono ts acc [c] t ((hInv.hmem t ht).mp (Or.inl ha))
        · have : t = c := by simpa using hc1
          subst this
          exact allDeps_mono ts acc [t] t hcall
      · rcases List.mem_append.mp h2 with hr | hN
        · exact allDeps_mono ts acc [c] t
            ((hInv.hmem t ht).mp (Or.inr (List.mem_cons_of_mem c hr)))
        · obtain ⟨_, hge1, hveq⟩ := (hNmem t).mp hN
          have hidg := hInv.hindeg t ht
          have h2 := huneq t
          rw [allDeps_iff_unemitted_zero]
          omega
    · intro hall
      by_cases hold : allDepsEmitted ts acc t = true
      · rcases (hInv.hmem t ht).mpr hold with ha | hcr
        · exact Or.inl (List.mem_append.mpr (Or.inl ha))
        · rcases List.mem_cons.mp hcr with rfl | hr
          · exact Or.inl (List.mem_append.mpr (Or.inr (by simp)))
          · exact Or.inr (List.mem_append.mpr (Or.inl hr))
      · refine Or.inr (List.mem_append.mpr (Or.inr ?_))
        have hu0 : unemittedDeps ts (acc ++ [c]) t = 0 :=
          (allDeps_iff_unemitted_zero _ _ _).mp hall
        have hune : ¬ unemittedDeps ts acc t = 0 :=
          fun hc => hold ((allDeps_iff_unemitted_zero _ _ _).mpr hc)
        have h2 := huneq t
        have hidg := hInv.hindeg t ht
        exact (hNmem t).mpr ⟨ht, by omega, by omega⟩
  · exact topoValid_append_one ts acc c hInv.htopo (allDeps_imp_ids ts acc c hcall)

theorem loopCore_zero (ts : List TestTask) (requeue : List TestTask → List TestTask)
    (indeg : String → Int) (ready acc : List TestTask) :
    loopCore ts requeue 0 indeg ready acc = acc := rfl

theorem loopCore_succ_nil (ts : List TestTask) (requeue : List TestTask → List TestTask)
    (fuel : Nat) (indeg : String → Int) (acc : List TestTask) :
    loopCore ts requeue (fuel + 1) indeg [] acc = acc := rfl

theorem loopCore_succ_cons (ts : List TestTask) (requeue : List TestTask → List TestTask)
    (fuel : Nat) (indeg : String → Int) (c : TestTask) (rest acc : List TestTask) :
    loopCore ts requeue (fuel + 1) indeg (c :: rest) acc =
      loopCore ts requeue fuel (processNeighbors ts (graphSucc ts c.id) indeg []).1
        (requeue (rest ++ (processNeighbors ts (graphSucc ts c.id) indeg []).2))
        (acc ++ [c]) := rfl

theorem loopInv_nil_end (ts : List TestTask) (indeg : String → Int)
    (acc : List TestTask) (hInv : LoopInv ts indeg [] acc) : EndInv ts acc := by
  refine ⟨fun t ht => hInv.hsub t (List.mem_append.mpr (Or.inl ht)), ?_, ?_, hInv.htopo⟩
  · have h0 := hInv.hnodup
    simpa using h0
  · intro t ht
    have h0 := hInv.hmem t ht
    simpa using h0

theorem nodup_sub_length_le (ts l : List TestTask) (hnd : (ids l).Nodup)
    (hsub : ∀ t ∈ l, t ∈ ts) : l.length ≤ ts.length := by
  have hsubids : ids l ⊆ ids ts := by
    intro x hx
    obtain ⟨w, hw, rfl⟩ := List.mem_map.mp hx
    exact List.mem_map.mpr ⟨w, hsub w hw, rfl⟩
  have hle := (hnd.subperm hsubids).length_le
  simpa [ids] using hle

theorem loopCore_endInv (ts : List TestTask) (hts : (ids ts).Nodup)
    (requeue : List TestTask → List TestTask)
    (hre : ∀ l, (requeue l).Perm l) :
    ∀ (fuel : Nat) (indeg : String → Int) (ready acc : List TestTask),
      LoopInv ts indeg ready acc →
      fuel + acc.length = ts.length →
      EndInv ts (loopCore ts requeue fuel indeg ready acc) := by
  intro fuel
  induction fuel with
  | zero =>
    intro indeg ready acc hInv hfuel
    cases ready with
    | nil => exact loopInv_nil_end ts indeg acc hInv
    | cons c rest =>
      exfalso
      have hlen := nodup_sub_length_le ts (acc ++ c :: rest) hInv.hnodup hInv.hsub
      simp at hlen
      omega
  | succ fuel ih =>
    intro indeg ready acc hInv hfuel
    cases ready with
    | nil =>
      rw [loopCore_succ_nil]
      exact loopInv_nil_end ts indeg acc hInv
    | cons c rest =>
      rw [loopCore_succ_cons]
      have hstep := loopInv_step ts hts indeg c rest acc hInv
      have hstep2 := loopInv_perm ts _ _ _ _ (hre _) hstep
      refine ih _ _ _ hstep2 ?_
      rw [List.length_append]
      simp at hfuel ⊢
      omega

theorem loopInv_init (ts : List TestTask) (hts : (ids ts).Nodup) :
    LoopInv ts (initIndeg ts) (ts.filter (fun t => initIndeg ts t.id == 0)) [] := by
  have hfilter_eq : ∀ t : TestTask,
      (t.dependencies.filter (fun d => inSet ts d)).length
        = unemittedDeps ts [] t := by
    intro t
    unfold unemittedDeps
    congr 1
    apply List.filter_congr
    intro d _
    simp
  have hinit : ∀ t ∈ ts, initIndeg ts t.id = (unemittedDeps ts [] t : Int) := by
    intro t ht
    unfold initIndeg
    rw [find_self ts hts t ht]
    show ((t.dependencies.filter (fun d => inSet ts d)).length : Int)
      = (unemittedDeps ts [] t : Int)
    rw [hfilter_eq t]
  refine ⟨?_, ?_, hinit, ?_, ?_⟩
  · intro t ht
    have ht2 : t ∈ ts.filter (fun t => initIndeg ts t.id == 0) := by simpa using ht
    exact (List.mem_filter.mp ht2).1
  · have hsl := (@List.filter_sublist TestTask
      (fun t => initIndeg ts t.id == 0) ts).map TestTask.id
    simpa using hts.sublist hsl
  · intro t ht
    have hnil : (t ∈ ([] : List TestTask) ∨
        t ∈ ts.filter (fun t => initIndeg ts t.id == 0)) ↔
        t ∈ ts.filter (fun t => initIndeg ts t.id == 0) := by simp
    rw [hnil, List.mem_filter, allDeps_iff_unemitted_zero]
    constructor
    · rintro ⟨_, hz⟩
      rw [beq_iff_eq, hinit t ht] at hz
      omega
    · intro hz
      refine ⟨ht, ?_⟩
      rw [beq_iff_eq, hinit t ht]
      omega
  · intro pre t post heq
    exact absurd heq (by simp)

theorem wave_spec (ts : List TestTask) (hts : (ids ts).Nodup)
    (requeue : List TestTask → List TestTask) (hre : ∀ l, (requeue l).Perm l)
    (ready0 : List TestTask)
    (hperm0 : ready0.Perm (ts.filter (fun t => initIndeg ts t.id == 0))) :
    EndInv ts (loopCore ts requeue ts.length (initIndeg ts) ready0 []) := by
  refine loopCore_endInv ts hts requeue hre ts.length (initIndeg ts) ready0 [] ?_ (by simp)
  exact loopInv_perm ts _ _ _ _ hperm0 (loopInv_init ts hts)

theorem emittable_mem (ts acc : List TestTask) (hEnd : EndInv ts acc) :
    ∀ t, Emittable ts t → t ∈ acc := by
  intro t h
  induction h with
  | intro t ht hdeps ihdeps =>
    refine (hEnd.hmem t ht).mpr ?_
    unfold allDepsEmitted
    rw [List.all_eq_true]
    intro d hd
    obtain ⟨hdd, hin⟩ := List.mem_filter.mp hd
    obtain ⟨u, hu, huid⟩ := List.mem_map.mp ((any_id_iff_mem_ids ts d).mp hin)
    have humem : u ∈ acc := ihdeps d hdd u hu huid
    exact (any_id_iff_mem_ids acc d).mpr (List.mem_map.mpr ⟨u, humem, huid⟩)

theorem mem_emittable (ts acc : List TestTask) (hts : (ids ts).Nodup)
    (hEnd : EndInv ts acc) :
    ∀ (n : Nat) (pre : List TestTask) (t : TestTask) (post : List TestTask),
      acc = pre ++ t :: post → pre.length < n → Emittable ts t := by
  intro n
  induction n with
  | zero => intro pre t post _ h; omega
  | succ n ih =>
    intro pre t post heq hlen
    have htacc : t ∈ acc := by rw [heq]; simp
    have hts2 : t ∈ ts := hEnd.hsub t htacc
    refine Emittable.intro t hts2 ?_
    intro d hd u hu huid
    have hin : inSet ts d = true :=
      (any_id_iff_mem_ids ts d).mpr (List.mem_map.mpr ⟨u, hu, huid⟩)
    have hdpre : d ∈ ids pre := hEnd.htopo pre t post heq d hd hin
    obtain ⟨w, hwpre, hwid⟩ := List.mem_map.mp hdpre
    have hwacc : w ∈ acc := by
      rw [heq]
      exact List.mem_append.mpr (Or.inl hwpre)
    have hwts : w ∈ ts := hEnd.hsub w hwacc
    have hwu : w = u :=
      List.inj_on_of_nodup_map hts hwts hu (hwid.trans huid.symm)
    subst hwu
    obtain ⟨s1, s2, hsplit⟩ := List.append_of_mem hwpre
    have heq2 : acc = s1 ++ w :: (s2 ++ t :: post) := by
      rw [heq, hsplit]
      simp
    refine ih s1 w (s2 ++ t :: post) heq2 ?_
    rw [hsplit] at hlen
    simp at hlen
    omega

theorem mem_emittable_of_mem (ts acc : List TestTask) (hts : (ids ts).Nodup)
    (hEnd : EndInv ts acc) (t : TestTask) (ht : t ∈ acc) : Emittable ts t := by
  obtain ⟨s1, s2, hsplit⟩ := List.append_of_mem ht
  exact mem_emittable ts acc hts hEnd (s1.length + 1) s1 t s2 hsplit (by omega)

theorem posOf_append_of_mem (x : String) :
    ∀ l1 l2 : List String, x ∈ l1 → posOf (l1 ++ l2) x = posOf l1 x := by
  intro l1
  induction l1 with
  | nil => intro l2 h; cases h
  | cons a l1 ih =>
    intro l2 h
    by_cases ha : a = x
    · subst ha
      simp [posOf]
    · have hax : (a == x) = false := by simpa using ha
      rcases List.mem_cons.mp h with rfl | h2
      · simp at hax
      · rw [List.cons_append]
        show posOf (a :: (l1 ++ l2)) x = posOf (a :: l1) x
        simp [posOf, hax, ih l2 h2]

theorem posOf_lt_length_of_mem (x : String) :
    ∀ l : List String, x ∈ l → posOf l x < l.length := by
  intro l
  induction l with
  | nil => intro h; cases h
  | cons a l ih =>
    intro h
    by_cases ha : a = x
    · subst ha
      simp [posOf]
    · have hax : (a == x) = false := by simpa using ha
      rcases List.mem_cons.mp h with rfl | h2
      · simp at hax
      · have := ih h2
        simp [posOf, hax]
        omega

theorem posOf_append_cons_self (x : String) :
    ∀ l1 l2 : List String, x ∉ l1 → posOf (l1 ++ x :: l2) x = l1.length := by
  intro l1
  induction l1 with
  | nil => intro l2 _; simp [posOf]
  | cons a l1 ih =>
    intro l2 h
    have hax : (a == x) = false := by
      rw [beq_eq_false_iff_ne]
      intro hc
      exact h (hc ▸ List.mem_cons_self a l1)
    rw [List.cons_append]
    show posOf (a :: (l1 ++ x :: l2)) x = (a :: l1).length
    simp [posOf, hax, ih l2 (fun hc => h (List.mem_cons_of_mem a hc))]

theorem acyclic_of_complete (ts acc : List TestTask) (hts : (ids ts).Nodup)
    (hEnd : EndInv ts acc) (hcomplete : ∀ t ∈ ts, t ∈ acc) : AcyclicIn ts := by
  refine ⟨posOf (ids acc), ?_⟩
  intro t ht d hd hin
  have htacc : t ∈ acc := hcomplete t ht
  obtain ⟨pre, post, hsplit⟩ := List.append_of_mem htacc
  have hdpre : d ∈ ids pre := hEnd.htopo pre t post hsplit d hd hin
  have hids : ids acc = ids pre ++ t.id :: ids post := by
    rw [hsplit, ids_append]
    rfl
  have htid_notin : t.id ∉ ids pre := by
    intro hc
    have hnd := hEnd.hnodup
    rw [hids] at hnd
    obtain ⟨_, _, hdisj⟩ := List.nodup_append.mp hnd
    exact hdisj hc (by simp)
  have h1 : posOf (ids acc) d < (ids pre).length := by
    rw [hids, posOf_append_of_mem d (ids pre) _ hdpre]
    exact posOf_lt_length_of_mem d (ids pre) hdpre
  have h2 : posOf (ids acc) t.id = (ids pre).length := by
    rw [hids]
    exact posOf_append_cons_self t.id (ids pre) (ids post) htid_notin
  omega

theorem complete_of_acyclic (ts acc : List TestTask) (hts : (ids ts).Nodup)
    (hEnd : EndInv ts acc) (hacyc : AcyclicIn ts) : ∀ t ∈ ts, t ∈ acc := by
  obtain ⟨rank, hrank⟩ := hacyc
  have main : ∀ (n : Nat), ∀ t ∈ ts, rank t.id < n → t ∈ acc := by
    intro n
    induction n with
    | zero => intro t _ h; omega
    | succ n ih =>
      intro t ht hlt
      refine (hEnd.hmem t ht).mpr ?_
      unfold allDepsEmitted
      rw [List.all_eq_true]
      intro d hd
      obtain ⟨hdd, hin⟩ := List.mem_filter.mp hd
      obtain ⟨u, hu, huid⟩ := List.mem_map.mp ((any_id_iff_mem_ids ts d).mp hin)
      have hdr : rank d < rank t.id := hrank t ht d hdd hin
      have humem : u ∈ acc := ih u hu (by rw [huid]; omega)
      exact (any_id_iff_mem_ids acc d).mpr (List.mem_map.mpr ⟨u, humem, huid⟩)
  exact fun t ht => main (rank t.id + 1) t ht (by omega)

theorem endInv_error_ids (ts acc : List TestTask) (hts : (ids ts).Nodup)
    (hEnd : EndInv ts acc) :
    ∀ i, (i ∈ (ts.map (fun t => t.id)).filter
        (fun i2 => !(acc.any (fun t => t.id == i2)))) ↔
      (i ∈ ids ts ∧ ∀ t ∈ ts, t.id = i → ¬ Emittable ts t) := by
  intro i
  rw [List.mem_filter]
  have hids : ts.map (fun t => t.id) = ids ts := rfl
  rw [hids]
  constructor
  · rintro ⟨hmem, hpred⟩
    refine ⟨hmem, ?_⟩
    intro t ht htid hemit
    have htacc : t ∈ acc := emittable_mem ts acc hEnd t hemit
    have : (acc.any (fun u => u.id == i)) = true :=
      (any_id_iff_mem_ids acc i).mpr (List.mem_map.mpr ⟨t, htacc, htid⟩)
    rw [this] at hpred
    cases hpred
  · rintro ⟨hmem, hnone⟩
    refine ⟨hmem, ?_⟩
    cases hval : acc.any (fun u => u.id == i) with
    | false => rfl
    | true =>
      exfalso
      obtain ⟨w, hwacc, hwid⟩ := List.mem_map.mp ((any_id_iff_mem_ids acc i).mp hval)
      have hwts : w ∈ ts := hEnd.hsub w hwacc
      exact hnone w hwts hwid (mem_emittable_of_mem ts acc hts hEnd w hwacc)

theorem endInv_length_iff (ts acc : List TestTask) (hts : (ids ts).Nodup)
    (hEnd : EndInv ts acc) :
    acc.length = ts.length ↔ AcyclicIn ts := by
  constructor
  · intro hlen
    refine acyclic_of_complete ts acc hts hEnd ?_
    intro t ht
    by_contra htnot
    have hsubids : ids acc ⊆ ids ts := by
      intro x hx
      obtain ⟨w, hw, rfl⟩ := List.mem_map.mp hx
      exact List.mem_map.mpr ⟨w, hEnd.hsub w hw, rfl⟩
    have htid_notin : t.id ∉ ids acc := by
      intro hc
      obtain ⟨w, hw, hwid⟩ := List.mem_map.mp hc
      have : w = t :=
        List.inj_on_of_nodup_map hts (hEnd.hsub w hw) ht hwid
      exact htnot (this ▸ hw)
    have hcons : (t.id :: ids acc).Nodup := List.nodup_cons.mpr ⟨htid_notin, hEnd.hnodup⟩
    have hsub2 : (t.id :: ids acc) ⊆ ids ts := by
      intro x hx
      rcases List.mem_cons.mp hx with rfl | hx2
      · exact List.mem_map.mpr ⟨t, ht, rfl⟩
      · exact hsubids hx2
    have := (hcons.subperm hsub2).length_le
    simp [ids] at this
    have hlacc : (ids acc).length = acc.length := by simp [ids]
    omega
  · intro hacyc
    have hcomplete := complete_of_acyclic ts acc hts hEnd hacyc
    have h1 := nodup_sub_length_le ts acc hEnd.hnodup hEnd.hsub
    have h2 := nodup_sub_length_le acc ts hts hcomplete
    omega

theorem sort_result (ts : List TestTask) (hts : (ids ts).Nodup) :
    ∃ acc, EndInv ts acc ∧
      TaskSorter.sort ts =
        (if acc.length == ts.length then Except.ok acc
         else Except.error ((ts.map (fun t => t.id)).filter
            (fun i => !(acc.any (fun t => t.id == i))))) := by
  refine ⟨loopCore ts (fun l => l) ts.length (initIndeg ts)
    (ts.filter (fun t => initIndeg ts t.id == 0)) [], ?_, ?_⟩
  · exact wave_spec ts hts _ (fun l => List.Perm.refl l) _ (List.Perm.refl _)
  · unfold TaskSorter.sort
    rw [tasksById_eq_self ts hts]

theorem plan_result (prio : TestType → Int) (ts : List TestTask)
    (hts : (ids ts).Nodup) :
    ∃ acc, EndInv ts acc ∧
      TestPlanGenerator.generate_plan prio ts =
        (if acc.length == ts.length then Except.ok acc
         else Except.error ((ts.map (fun t => t.id)).filter
            (fun i => !(acc.any (fun t => t.id == i))))) := by
  refine ⟨loopCore ts (TestPlanGenerator.requeueByPriority prio) ts.length (initIndeg ts)
    (sortedDescBy (fun t => prio t.test_type)
      (ts.filter (fun t => initIndeg ts t.id == 0))) [], ?_, ?_⟩
  · refine wave_spec ts hts _ ?_ _ (perm_sortedDescBy _ _)
    intro l
    unfold TestPlanGenerator.requeueByPriority
    by_cases h : l.isEmpty
    · rw [if_pos h]
    · rw [if_neg h]
      exact perm_sortedDescBy _ l
  · unfold TestPlanGenerator.generate_plan
    rw [tasksById_eq_self ts hts]

/-- C1 (confirmed): for every finite task set with unique ids whose in-set
dependency relation is acyclic, both `TaskSorter.sort` and
`TestPlanGenerator.generate_plan` (for every priority function) succeed,
and in each returned list every dependency of a task that is present in the
input appears at an index strictly before the task. -/
theorem C1_topological_validity (ts : List TestTask) (prio : TestType → Int)
    (hnd : (ids ts).Nodup) (hacyc : AcyclicIn ts) :
    ∃ l l2, TaskSorter.sort ts = Except.ok l ∧
      TestPlanGenerator.generate_plan prio ts = Except.ok l2 ∧
      TopoValid ts l ∧ TopoValid ts l2 := by
  obtain ⟨acc, hEnd, heq⟩ := sort_result ts hnd
  obtain ⟨acc2, hEnd2, heq2⟩ := plan_result prio ts hnd
  have hlen : acc.length = ts.length := (endInv_length_iff ts acc hnd hEnd).mpr hacyc
  have hlen2 : acc2.length = ts.length := (endInv_length_iff ts acc2 hnd hEnd2).mpr hacyc
  refine ⟨acc, acc2, ?_, ?_, hEnd.htopo, hEnd2.htopo⟩
  · rw [heq, if_pos (by rw [hlen]; exact beq_self_eq_true _)]
  · rw [heq2, if_pos (by rw [hlen2]; exact beq_self_eq_true _)]

/-- C2 (confirmed): with unique ids, if the in-set dependency relation is
acyclic both `sort` and `generate_plan` return a full-length list; otherwise
both raise the cycle error — no partial plan is returned — and the error
reports exactly the ids of the tasks outside the dependency-closed
(emittable) part of the graph, i.e. the un-emitted tasks. -/
theorem C2_completeness_and_cycle_error (ts : List TestTask) (prio : TestType → Int)
    (hnd : (ids ts).Nodup) :
    (AcyclicIn ts →
      (∃ l, TaskSorter.sort ts = Except.ok l ∧ l.length = ts.length) ∧
      (∃ l2, TestPlanGenerator.generate_plan prio ts = Except.ok l2 ∧
        l2.length = ts.length)) ∧
    (¬ AcyclicIn ts →
      (∃ m, TaskSorter.sort ts = Except.error m ∧
        (∀ i, i ∈ m ↔ i ∈ ids ts ∧ ∀ t ∈ ts, t.id = i → ¬ Emittable ts t)) ∧
      (∃ m2, TestPlanGenerator.generate_plan prio ts = Except.error m2 ∧
        (∀ i, i ∈ m2 ↔ i ∈ ids ts ∧ ∀ t ∈ ts, t.id = i → ¬ Emittable ts t))) := by
  obtain ⟨acc, hEnd, heq⟩ := sort_result ts hnd
  obtain ⟨acc2, hEnd2, heq2⟩ := plan_result prio ts hnd
  constructor
  · intro hacyc
    have hlen : acc.length = ts.length := (endInv_length_iff ts acc hnd hEnd).mpr hacyc
    have hlen2 : acc2.length = ts.length := (endInv_length_iff ts acc2 hnd hEnd2).mpr hacyc
    constructor
    · refine ⟨acc, ?_, hlen⟩
      rw [heq, if_pos (by rw [hlen]; exact beq_self_eq_true _)]
    · refine ⟨acc2, ?_, hlen2⟩
      rw [heq2, if_pos (by rw [hlen2]; exact beq_self_eq_true _)]
  · intro hcyc
    have hlen : ¬ acc.length = ts.length :=
      fun hc => hcyc ((endInv_length_iff ts acc hnd hEnd).mp hc)
    have hlen2 : ¬ acc2.length = ts.length :=
      fun hc => hcyc ((endInv_length_iff ts acc2 hnd hEnd2).mp hc)
    constructor
    · refine ⟨_, ?_, endInv_error_ids ts acc hnd hEnd⟩
      rw [heq, if_neg (by simpa using hlen)]
    · refine ⟨_, ?_, endInv_error_ids ts acc2 hnd hEnd2⟩
      rw [heq2, if_neg (by simpa using hlen2)]

theorem C1_witness :
    (ids chainTasks).Nodup ∧ AcyclicIn chainTasks ∧
    (∃ l l2, TaskSorter.sort chainTasks = Except.ok l ∧
      TestPlanGenerator.generate_plan defaultPriority chainTasks = Except.ok l2 ∧
      TopoValid chainTasks l ∧ TopoValid chainTasks l2) := by
  have hnd : (ids chainTasks).Nodup := by decide
  have hacyc : AcyclicIn chainTasks :=
    ⟨fun i => if i = "A" then 0 else if i = "B" then 1 else 2, by decide⟩
  exact ⟨hnd, hacyc, C1_topological_validity chainTasks defaultPriority hnd hacyc⟩

theorem C2_witness :
    ((ids chainTasks).Nodup ∧ AcyclicIn chainTasks ∧
      (∃ l, TaskSorter.sort chainTasks = Except.ok l ∧ l.length = chainTasks.length)) ∧
    ((ids cycleTasks).Nodup ∧ ¬ AcyclicIn cycleTasks ∧
      (∃ m, TaskSorter.sort cycleTasks = Except.error m ∧
        (∀ i, i ∈ m ↔ i ∈ ids cycleTasks ∧
          ∀ t ∈ cycleTasks, t.id = i → ¬ Emittable cycleTasks t))) := by
  constructor
  · have hnd : (ids chainTasks).Nodup := by decide
    have hacyc : AcyclicIn chainTasks :=
      ⟨fun i => if i = "A" then 0 else if i = "B" then 1 else 2, by decide⟩
    exact ⟨hnd, hacyc,
      ((C2_completeness_and_cycle_error chainTasks defaultPriority hnd).1 hacyc).1⟩
  · have hnd : (ids cycleTasks).Nodup := by decide
    have hcyc : ¬ AcyclicIn cycleTasks := by
      rintro ⟨rank, hrank⟩
      have h1 := hrank (mkTask "A" TestType.unit ["B"] TaskStatus.pending)
        (by decide) "B" (by decide) (by decide)
      have h2 := hrank (mkTask "B" TestType.unit ["A"] TaskStatus.pending)
        (by decide) "A" (by decide) (by decide)
      simp [mkTask] at h1 h2
      omega
    exact ⟨hnd, hcyc,
      ((C2_completeness_and_cycle_error cycleTasks defaultPriority hnd).2 hcyc).1⟩

/-! Eligibility-time lemmas for the generator's tie-break order. -/

theorem leastUpTo_le_succ (p : Nat → Bool) : ∀ n, leastUpTo p n ≤ n + 1 := by
  intro n
  induction n with
  | zero =>
    unfold leastUpTo
    by_cases h : p 0 = true <;> simp [h]
  | succ n ih =>
    unfold leastUpTo
    by_cases h1 : leastUpTo p n ≤ n
    · rw [if_pos h1]
      omega
    · rw [if_neg h1]
      by_cases h2 : p (n + 1) = true <;> simp [h2]

theorem leastUpTo_spec (p : Nat → Bool) :
    ∀ n, leastUpTo p n ≤ n → p (leastUpTo p n) = true := by
  intro n
  induction n with
  | zero =>
    intro h
    unfold leastUpTo at h ⊢
    by_cases hp : p 0 = true
    · rw [if_pos hp]
      exact hp
    · rw [if_neg hp] at h
      omega
  | succ n ih =>
    intro h
    unfold leastUpTo at h ⊢
    by_cases h1 : leastUpTo p n ≤ n
    · rw [if_pos h1] at h ⊢
      exact ih h1
    · rw [if_neg h1] at h ⊢
      by_cases h2 : p (n + 1) = true
      · rw [if_pos h2] at h ⊢
        exact h2
      · rw [if_neg h2] at h
        omega

theorem leastUpTo_min (p : Nat → Bool) :
    ∀ n j, j < leastUpTo p n → p j = false := by
  intro n
  induction n with
  | zero =>
    intro j hj
    unfold leastUpTo at hj
    by_cases hp : p 0 = true
    · rw [if_pos hp] at hj
      omega
    · rw [if_neg hp] at hj
      have : j = 0 := by omega
      subst this
      exact Bool.eq_false_iff.mpr hp
  | succ n ih =>
    intro j hj
    unfold leastUpTo at hj
    by_cases h1 : leastUpTo p n ≤ n
    · rw [if_pos h1] at hj
      exact ih j hj
    · rw [if_neg h1] at hj
      by_cases h2 : p (n + 1) = true
      · rw [if_pos h2] at hj
        by_cases hjn : j < leastUpTo p n
        · exact ih j hjn
        · exfalso
          have := leastUpTo_le_succ p n
          omega
      · rw [if_neg h2] at hj
        by_cases hjn : j < leastUpTo p n
        · exact ih j hjn
        · have hje : j = n + 1 := by
            have := leastUpTo_le_succ p n
            omega
          subst hje
          exact Bool.eq_false_iff.mpr h2

theorem leastUpTo_le_of (p : Nat → Bool) :
    ∀ n k, k ≤ n → p k = true → leastUpTo p n ≤ k := by
  intro n k hk hp
  by_contra hc
  have := leastUpTo_min p n k (by omega)
  rw [hp] at this
  cases this

theorem allDeps_of_take (ts l : List TestTask) (t : TestTask) (j : Nat)
    (h : allDepsEmitted ts (l.take j) t = true) :
    allDepsEmitted ts l t = true := by
  have h2 := allDeps_mono ts (l.take j) (l.drop j) t h
  rwa [List.take_append_drop] at h2

theorem eligTime_le_of_allDeps (ts l : List TestTask) (t : TestTask)
    (h : allDepsEmitted ts l t = true) : eligTime ts l t ≤ l.length := by
  unfold eligTime
  refine leastUpTo_le_of _ _ _ (le_refl _) ?_
  rw [List.take_length]
  exact h

theorem eligTime_stable (ts l ext : List TestTask) (t : TestTask)
    (h : allDepsEmitted ts l t = true) :
    eligTime ts (l ++ ext) t = eligTime ts l t := by
  have hk0 : eligTime ts l t ≤ l.length := eligTime_le_of_allDeps ts l t h
  have hel : eligTime ts l t
      = leastUpTo (fun k => allDepsEmitted ts (l.take k) t) l.length := rfl
  have her : eligTime ts (l ++ ext) t
      = leastUpTo (fun k => allDepsEmitted ts ((l ++ ext).take k) t)
          (l ++ ext).length := rfl
  have hlen : l.length ≤ (l ++ ext).length := by simp
  have hqp : ∀ j, j ≤ l.length →
      allDepsEmitted ts ((l ++ ext).take j) t = allDepsEmitted ts (l.take j) t := by
    intro j hj
    rw [List.take_append_of_le_length hj]
  have hspec : allDepsEmitted ts
      (l.take (leastUpTo (fun k => allDepsEmitted ts (l.take k) t) l.length)) t = true :=
    leastUpTo_spec _ l.length (by rw [← hel]; exact hk0)
  apply Nat.le_antisymm
  · rw [her, hel]
    refine leastUpTo_le_of _ ((l ++ ext).length)
      (leastUpTo (fun k => allDepsEmitted ts (l.take k) t) l.length) ?_ ?_
    · rw [← hel]
      omega
    · show allDepsEmitted ts ((l ++ ext).take
        (leastUpTo (fun k => allDepsEmitted ts (l.take k) t) l.length)) t = true
      rw [hqp _ (by rw [← hel]; exact hk0)]
      exact hspec
  · by_contra hc
    push_neg at hc
    rw [her, hel] at hc
    have h1 : leastUpTo (fun k => allDepsEmitted ts ((l ++ ext).take k) t)
        (l ++ ext).length ≤ l.length := by
      have h1a : leastUpTo (fun k => allDepsEmitted ts (l.take k) t) l.length
          ≤ l.length := by
        rw [← hel]
        exact hk0
      omega
    have h2 : allDepsEmitted ts ((l ++ ext).take
        (leastUpTo (fun k => allDepsEmitted ts ((l ++ ext).take k) t)
          (l ++ ext).length)) t = true :=
      leastUpTo_spec _ _ (le_trans h1 hlen)
    rw [hqp _ h1] at h2
    have h3 := leastUpTo_min (fun k => allDepsEmitted ts (l.take k) t) l.length _ hc
    have h3b : allDepsEmitted ts (l.take
        (leastUpTo (fun k => allDepsEmitted ts ((l ++ ext).take k) t)
          (l ++ ext).length)) t = false := h3
    rw [h2] at h3b
    cases h3b

theorem eligTime_newly (ts l : List TestTask) (c : TestTask) (t : TestTask)
    (hnot : ¬ allDepsEmitted ts l t = true)
    (hnew : allDepsEmitted ts (l ++ [c]) t = true) :
    eligTime ts (l ++ [c]) t = l.length + 1 := by
  have her : eligTime ts (l ++ [c]) t
      = leastUpTo (fun k => allDepsEmitted ts ((l ++ [c]).take k) t)
          (l ++ [c]).length := rfl
  have hlen : (l ++ [c]).length = l.length + 1 := by simp
  have hfalse : ∀ j, j ≤ l.length →
      allDepsEmitted ts ((l ++ [c]).take j) t = false := by
    intro j hj
    rw [List.take_append_of_le_length hj]
    cases hval : allDepsEmitted ts (l.take j) t with
    | false => rfl
    | true => exact absurd (allDeps_of_take ts l t j hval) hnot
  have hptrue : allDepsEmitted ts ((l ++ [c]).take (l.length + 1)) t = true := by
    rw [List.take_of_length_le (by omega)]
    exact hnew
  have hub : eligTime ts (l ++ [c]) t ≤ l.length + 1 := by
    rw [her]
    exact leastUpTo_le_of _ _ _ (by omega) hptrue
  have hlb : ¬ eligTime ts (l ++ [c]) t ≤ l.length := by
    intro hle
    have hspec : allDepsEmitted ts ((l ++ [c]).take
        (leastUpTo (fun k => allDepsEmitted ts ((l ++ [c]).take k) t)
          (l ++ [c]).length)) t = true :=
      leastUpTo_spec _ _ (by rw [← her]; omega)
    rw [← her] at hspec
    rw [hfalse _ hle] at hspec
    cases hspec
  omega

/-! Structure of the stable descending sort: uniqueness, and head/tail
decomposition of a sorted queue. -/

theorem eq_of_sorted_of_keyFilter_eq {α : Type} (key : α → Int) :
    ∀ l1 l2 : List α, List.Sorted (descBy key) l1 → List.Sorted (descBy key) l2 →
      (∀ k : Int, l1.filter (fun b => key b == k) = l2.filter (fun b => key b == k)) →
      l1 = l2 := by
  intro l1
  induction l1 with
  | nil =>
    intro l2 _ _ hf
    cases l2 with
    | nil => rfl
    | cons b l2 =>
      have h := hf (key b)
      rw [List.filter_nil, List.filter_cons, if_pos (by simp)] at h
      cases h
  | cons a l1 ih =>
    intro l2 hs1 hs2 hf
    cases l2 with
    | nil =>
      have h := hf (key a)
      rw [List.filter_nil, List.filter_cons, if_pos (by simp)] at h
      cases h
    | cons b l2 =>
      have hkab : key a = key b := by
        by_contra hne
        have h1 := hf (key a)
        rw [List.filter_cons, List.filter_cons, if_pos (by simp),
          if_neg (by simp; exact fun hc => hne hc.symm)] at h1
        have ha2 : a ∈ l2 := by
          have hmem : a ∈ l2.filter (fun x => key x == key a) := by
            rw [← h1]
            simp
          exact (List.mem_filter.mp hmem).1
        have hle1 : key a ≤ key b := List.rel_of_sorted_cons hs2 a ha2
        have h2 := hf (key b)
        rw [List.filter_cons, List.filter_cons,
          if_neg (by simp; exact hne), if_pos (by simp)] at h2
        have hb1 : b ∈ l1 := by
          have hmem : b ∈ l1.filter (fun x => key x == key b) := by
            rw [h2]
            simp
          exact (List.mem_filter.mp hmem).1
        have hle2 : key b ≤ key a := List.rel_of_sorted_cons hs1 b hb1
        exact hne (le_antisymm hle1 hle2)
      have hab : a = b := by
        have h1 := hf (key a)
        rw [List.filter_cons, List.filter_cons, if_pos (by simp),
          if_pos (by rw [hkab]; simp)] at h1
        exact (List.cons_eq_cons.mp h1).1
      subst hab
      have htails : l1 = l2 := by
        refine ih l2 hs1.of_cons hs2.of_cons ?_
        intro k
        have h1 := hf k
        rw [List.filter_cons, List.filter_cons] at h1
        by_cases hk : (key a == k) = true
        · rw [if_pos hk, if_pos hk] at h1
          injection h1
        · rw [if_neg hk, if_neg hk] at h1
          exact h1
      rw [htails]

theorem filter_eq_cons_split {α : Type} (p : α → Bool) :
    ∀ (l : List α) (a : α) (as : List α), l.filter p = a :: as →
      ∃ l1 l2, l = l1 ++ a :: l2 ∧ (∀ x ∈ l1, p x = false) ∧ p a = true ∧
        l2.filter p = as := by
  intro l
  induction l with
  | nil => intro a as h; cases h
  | cons b l ih =>
    intro a as h
    rw [List.filter_cons] at h
    by_cases hpb : p b = true
    · rw [if_pos hpb] at h
      injection h with h1 h2
      subst h1
      exact ⟨[], l, rfl, by simp, hpb, h2⟩
    · rw [if_neg hpb] at h
      obtain ⟨l1, l2, heq, hl1, hpa, hl2⟩ := ih a as h
      refine ⟨b :: l1, l2, by rw [heq]; rfl, ?_, hpa, hl2⟩
      intro x hx
      rcases List.mem_cons.mp hx with rfl | hx2
      · exact Bool.eq_false_iff.mpr hpb
      · exact hl1 x hx2

theorem sortedDescBy_cons_split {α : Type} (key : α → Int) (enq : List α)
    (c : α) (q : List α) (h : sortedDescBy key enq = c :: q) :
    ∃ e1 e2, enq = e1 ++ c :: e2 ∧ (∀ x ∈ e1, key x ≠ key c) ∧
      q = sortedDescBy key (e1 ++ e2) ∧ (∀ u ∈ enq, key u ≤ key c) := by
  have hsorted : List.Sorted (descBy key) (c :: q) := by
    rw [← h]
    exact sorted_sortedDescBy key enq
  have hmax : ∀ u ∈ enq, key u ≤ key c := by
    intro u hu
    have hu2 : u ∈ c :: q := by
      rw [← h]
      exact ((perm_sortedDescBy key enq).mem_iff).mpr hu
    rcases List.mem_cons.mp hu2 with rfl | huq
    · exact le_refl _
    · exact List.rel_of_sorted_cons hsorted u huq
  have hfilter_eq : enq.filter (fun b => key b == key c)
      = c :: q.filter (fun b => key b == key c) := by
    rw [← keyFilter_sortedDescBy key (key c) enq, h, List.filter_cons,
      if_pos (by simp)]
  obtain ⟨e1, e2, henq, he1, _, he2f⟩ :=
    filter_eq_cons_split (fun b => key b == key c) enq c _ hfilter_eq
  have he1ne : ∀ x ∈ e1, key x ≠ key c := by
    intro x hx
    have := he1 x hx
    simpa using this
  refine ⟨e1, e2, henq, he1ne, ?_, hmax⟩
  refine eq_of_sorted_of_keyFilter_eq key q (sortedDescBy key (e1 ++ e2))
    hsorted.of_cons (sorted_sortedDescBy key (e1 ++ e2)) ?_
  intro k
  rw [keyFilter_sortedDescBy key k (e1 ++ e2), List.filter_append]
  by_cases hk : k = key c
  · have he1nil : e1.filter (fun b => key b == k) = [] := by
      rw [List.filter_eq_nil_iff]
      intro x hx
      simp
      rw [hk]
      exact he1ne x hx
    rw [he1nil, List.nil_append, hk, he2f]
  · have hq : q.filter (fun b => key b == k)
        = (c :: q).filter (fun b => key b == k) := by
      rw [List.filter_cons, if_neg (by simp; exact fun hc => hk hc.symm)]
    rw [hq]
    have henqf : (c :: q).filter (fun b => key b == k)
        = enq.filter (fun b => key b == k) := by
      rw [← h, keyFilter_sortedDescBy]
    rw [henqf, henq, List.filter_append, List.filter_cons,
      if_neg (by simp; exact fun hc => hk hc.symm)]

theorem posOf_cons_ne (x a : String) (L : List String) (h : a ≠ x) :
    posOf (x :: L) a = posOf L a + 1 := by
  have : (x == a) = false := by
    rw [beq_eq_false_iff_ne]
    exact fun hc => h hc.symm
  simp [posOf, this]

theorem pairwise_posOf : ∀ L : List String, L.Nodup →
    L.Pairwise (fun a b => posOf L a < posOf L b) := by
  intro L
  induction L with
  | nil => intro _; exact List.Pairwise.nil
  | cons x L ih =>
    intro hnd
    obtain ⟨hx, hndL⟩ := List.nodup_cons.mp hnd
    rw [List.pairwise_cons]
    constructor
    · intro b hb
      have hbx : b ≠ x := fun hc => hx (hc ▸ hb)
      rw [posOf_cons_ne x b L hbx]
      simp [posOf]
    · refine (ih hndL).imp_of_mem ?_
      intro a b ha hb hlt
      have hax : a ≠ x := fun hc => hx (hc ▸ ha)
      have hbx : b ≠ x := fun hc => hx (hc ▸ hb)
      rw [posOf_cons_ne x a L hax, posOf_cons_ne x b L hbx]
      omega

theorem pairwise_posOf_tasks (ts : List TestTask) (hts : (ids ts).Nodup) :
    ts.Pairwise (fun a b => posOf (ids ts) a.id < posOf (ids ts) b.id) := by
  have h := pairwise_posOf (ids ts) hts
  have h2 : (ts.map TestTask.id).Pairwise
      (fun a b => posOf (ids ts) a < posOf (ids ts) b) := h
  rw [List.pairwise_map] at h2
  exact h2

theorem newly_eq (ts : List TestTask) (hts : (ids ts).Nodup)
    (indeg : String → Int) (c : TestTask) (rest acc : List TestTask)
    (hInv : LoopInv ts indeg (c :: rest) acc) :
    (processNeighbors ts (graphSucc ts c.id) indeg []).2
      = ts.filter (fun v => decide (1 ≤ v.dependencies.count c.id) &&
          (indeg v.id == (v.dependencies.count c.id : Int))) := by
  have hcts : c ∈ ts := hInv.hsub c (List.mem_append.mpr (Or.inr (by simp)))
  have hcin : inSet ts c.id = true :=
    (any_id_iff_mem_ids ts c.id).mpr (List.mem_map.mpr ⟨c, hcts, rfl⟩)
  have hnd_ar : (ids acc ++ ids (c :: rest)).Nodup := by
    have h0 := hInv.hnodup
    rwa [ids_append] at h0
  obtain ⟨_, _, hdisj⟩ := List.nodup_append.mp hnd_ar
  have hcnotacc : c.id ∉ ids acc := fun hc => hdisj hc (by simp [ids])
  have hle : ∀ u ∈ ts, (u.dependencies.count c.id : Int) ≤ indeg u.id := by
    intro u hu
    rw [hInv.hindeg u hu]
    have hq : (inSet ts c.id && !(acc.any (fun w => w.id == c.id))) = true := by
      rw [Bool.and_eq_true]
      refine ⟨hcin, ?_⟩
      cases hval : acc.any (fun w => w.id == c.id) with
      | true => exact absurd ((any_id_iff_mem_ids acc _).mp hval) hcnotacc
      | false => rfl
    have h1 : u.dependencies.count c.id =
        (u.dependencies.filter
          (fun d => inSet ts d && !(acc.any (fun w => w.id == d)))).count c.id :=
      (count_filter_of_pos _ c.id hq u.dependencies).symm
    have h2 := List.count_le_length c.id
      (u.dependencies.filter (fun d => inSet ts d && !(acc.any (fun w => w.id == d))))
    unfold unemittedDeps
    omega
  exact processNeighbors_graphSucc ts c.id (fun u hu => find_self ts hts u hu)
    ts indeg hts (fun u hu => hu) hle

theorem ready_not_in_acc (ts : List TestTask) (indeg : String → Int)
    (ready acc : List TestTask) (hInv : LoopInv ts indeg ready acc) :
    ∀ u ∈ ready, u ∉ acc := by
  intro u hu huacc
  have hnd : (ids acc ++ ids ready).Nodup := by
    have h0 := hInv.hnodup
    rwa [ids_append] at h0
  obtain ⟨_, _, hdisj⟩ := List.nodup_append.mp hnd
  exact hdisj (List.mem_map.mpr ⟨u, huacc, rfl⟩) (List.mem_map.mpr ⟨u, hu, rfl⟩)

theorem newly_elig (ts : List TestTask) (hts : (ids ts).Nodup)
    (indeg : String → Int) (c : TestTask) (rest acc : List TestTask)
    (hInv : LoopInv ts indeg (c :: rest) acc) :
    ∀ v ∈ (processNeighbors ts (graphSucc ts c.id) indeg []).2,
      v ∈ ts ∧ ¬ allDepsEmitted ts acc v = true ∧
        allDepsEmitted ts (acc ++ [c]) v = true := by
  intro v hv
  rw [newly_eq ts hts indeg c rest acc hInv, List.mem_filter] at hv
  obtain ⟨hvts, hvp⟩ := hv
  rw [Bool.and_eq_true, decide_eq_true_iff, beq_iff_eq] at hvp
  obtain ⟨hge1, hveq⟩ := hvp
  have hidg := hInv.hindeg v hvts
  have hcts : c ∈ ts := hInv.hsub c (List.mem_append.mpr (Or.inr (by simp)))
  have hcin : inSet ts c.id = true :=
    (any_id_iff_mem_ids ts c.id).mpr (List.mem_map.mpr ⟨c, hcts, rfl⟩)
  have hnd_ar : (ids acc ++ ids (c :: rest)).Nodup := by
    have h0 := hInv.hnodup
    rwa [ids_append] at h0
  obtain ⟨_, _, hdisj⟩ := List.nodup_append.mp hnd_ar
  have hcnotacc : c.id ∉ ids acc := fun hc => hdisj hc (by simp [ids])
  have huneq := unemitted_append_one ts acc c v hcin hcnotacc
  refine ⟨hvts, ?_, ?_⟩
  · rw [allDeps_iff_unemitted_zero]
    omega
  · rw [allDeps_iff_unemitted_zero]
    omega

theorem planInv_step (prio : TestType → Int) (ts : List TestTask)
    (hts : (ids ts).Nodup) (indeg : String → Int) (c : TestTask)
    (rest acc : List TestTask)
    (hInv : LoopInv ts indeg (c :: rest) acc)
    (hP : PlanInv prio ts (c :: rest) acc) :
    PlanInv prio ts
      (TestPlanGenerator.requeueByPriority prio
        (rest ++ (processNeighbors ts (graphSucc ts c.id) indeg []).2))
      (acc ++ [c]) := by
  obtain ⟨enq, hq, hpw⟩ := hP.hqueue
  obtain ⟨e1, e2, henq, he1ne, hrest, hmax⟩ :=
    sortedDescBy_cons_split (fun t => prio t.test_type) enq c rest hq.symm
  have hmem_enq : ∀ u, u ∈ enq ↔ u ∈ c :: rest := by
    intro u
    rw [hq]
    exact ((perm_sortedDescBy _ enq).mem_iff).symm
  have helig : ∀ u ∈ enq, u ∈ ts ∧ u ∉ acc ∧ allDepsEmitted ts acc u = true := by
    intro u hu
    have hur : u ∈ c :: rest := (hmem_enq u).mp hu
    have huts : u ∈ ts := hInv.hsub u (List.mem_append.mpr (Or.inr hur))
    exact ⟨huts, ready_not_in_acc ts indeg (c :: rest) acc hInv u hur,
      (hInv.hmem u huts).mp (Or.inr hur)⟩
  have hNelig := newly_elig ts hts indeg c rest acc hInv
  have hNsub : (processNeighbors ts (graphSucc ts c.id) indeg []).2.Sublist ts := by
    rw [newly_eq ts hts indeg c rest acc hInv]
    exact List.filter_sublist ts
  have hNtime : ∀ v ∈ (processNeighbors ts (graphSucc ts c.id) indeg []).2,
      eligTime ts (acc ++ [c]) v = acc.length + 1 := by
    intro v hv
    obtain ⟨_, hnot, hnew⟩ := hNelig v hv
    exact eligTime_newly ts acc c v hnot hnew
  have holdtime : ∀ u ∈ e1 ++ e2,
      eligTime ts (acc ++ [c]) u = eligTime ts acc u ∧
        eligTime ts acc u ≤ acc.length := by
    intro u hu
    have huenq : u ∈ enq := by
      rw [henq]
      rcases List.mem_append.mp hu with h1 | h2
      · exact List.mem_append.mpr (Or.inl h1)
      · exact List.mem_append.mpr (Or.inr (List.mem_cons_of_mem c h2))
    obtain ⟨_, _, hall⟩ := helig u huenq
    exact ⟨eligTime_stable ts acc [c] u hall, eligTime_le_of_allDeps ts acc u hall⟩
  refine ⟨⟨(e1 ++ e2) ++ (processNeighbors ts (graphSucc ts c.id) indeg []).2, ?_, ?_⟩,
    ?_, ?_⟩
  · -- the re-sorted queue is the stable sort of the new enqueue list
    unfold TestPlanGenerator.requeueByPriority
    by_cases hempty : (rest ++ (processNeighbors ts (graphSucc ts c.id) indeg []).2).isEmpty = true
    · rw [if_pos hempty]
      rw [List.isEmpty_iff] at hempty
      have hrnil : rest = [] := by
        cases hres : rest with
        | nil => rfl
        | cons x xs => rw [hres] at hempty; cases hempty
      have hNnil : (processNeighbors ts (graphSucc ts c.id) indeg []).2 = [] := by
        rw [hrnil] at hempty
        simpa using hempty
      have he12 : e1 ++ e2 = [] := by
        have hp := perm_sortedDescBy (fun t => prio t.test_type) (e1 ++ e2)
        rw [← hrest, hrnil] at hp
        exact (hp.symm.eq_nil)
      rw [hempty, he12, hNnil]
      rfl
    · rw [if_neg hempty]
      refine eq_of_sorted_of_keyFilter_eq (fun t => prio t.test_type) _ _
        (sorted_sortedDescBy _ _) (sorted_sortedDescBy _ _) ?_
      intro k
      rw [keyFilter_sortedDescBy, keyFilter_sortedDescBy, List.filter_append,
        List.filter_append]
      have hrf : rest.filter (fun b => prio b.test_type == k)
          = (e1 ++ e2).filter (fun b => prio b.test_type == k) := by
        rw [hrest, keyFilter_sortedDescBy]
      rw [hrf]
  · -- the new enqueue list is ordered by the tie-break relation
    rw [List.pairwise_append]
    refine ⟨?_, ?_, ?_⟩
    · -- old entries, tie-break order carried over
      have hsub : (e1 ++ e2).Sublist enq := by
        rw [henq]
        exact (List.sublist_cons_self c e2).append_left e1
      refine ((hpw.sublist hsub).imp_of_mem ?_)
      intro a b ha hb hab
      obtain ⟨hsa, _⟩ := holdtime a ha
      obtain ⟨hsb, _⟩ := holdtime b hb
      unfold EligBefore at hab ⊢
      rw [hsa, hsb]
      exact hab
    · -- newly enqueued tasks in input order, equal eligibility step
      have hpairN := (pairwise_posOf_tasks ts hts).sublist hNsub
      refine hpairN.imp_of_mem ?_
      intro a b ha hb hab
      unfold EligBefore
      rw [hNtime a ha, hNtime b hb]
      exact Or.inr ⟨rfl, hab⟩
    · -- every old entry precedes every new one
      intro a ha b hb
      unfold EligBefore
      obtain ⟨hsa, hlea⟩ := holdtime a ha
      rw [hsa, hNtime b hb]
      omega
  · -- greedy by priority extends to the new emission
    intro pre x post heq u hu hunotpre halldeps
    rcases append_singleton_split pre x post acc c heq.symm with
      ⟨hpre, hxc, _⟩ | ⟨post2, hacc, _⟩
    · subst hpre
      subst hxc
      rcases (hInv.hmem u hu).mpr halldeps with hua | hur
      · exact absurd hua hunotpre
      · have huenq : u ∈ enq := (hmem_enq u).mpr hur
        exact hmax u huenq
    · exact hP.hgreedy pre x post2 hacc u hu hunotpre halldeps
  · -- stable tie-break extends to the new emission
    intro pre x post heq u hu hunotpre hune halldeps hkey
    rcases append_singleton_split pre x post acc c heq.symm with
      ⟨hpre, hxc, _⟩ | ⟨post2, hacc, _⟩
    · subst hpre
      subst hxc
      rcases (hInv.hmem u hu).mpr halldeps with hua | hur
      · exact absurd hua hunotpre
      · have huenq : u ∈ enq := (hmem_enq u).mpr hur
        have hue2 : u ∈ e2 := by
          rw [henq] at huenq
          rcases List.mem_append.mp huenq with h1 | h2
          · exact absurd hkey (he1ne u h1)
          · rcases List.mem_cons.mp h2 with rfl | h3
            · exact absurd rfl hune
            · exact h3
        have hpw2 := (List.pairwise_append.mp (henq ▸ hpw)).2.1
        exact (List.pairwise_cons.mp hpw2).1 u hue2
    · exact hP.hstable pre x post2 hacc u hu hunotpre hune halldeps hkey

theorem initIndeg_zero_iff (ts : List TestTask) (hts : (ids ts).Nodup)
    (t : TestTask) (ht : t ∈ ts) :
    initIndeg ts t.id = 0 ↔ allDepsEmitted ts [] t = true := by
  have hfilter_eq : (t.dependencies.filter (fun d => inSet ts d)).length
      = unemittedDeps ts [] t := by
    unfold unemittedDeps
    congr 1
    apply List.filter_congr
    intro d _
    simp
  have hinit : initIndeg ts t.id = ((t.dependencies.filter (fun d => inSet ts d)).length : Int) := by
    unfold initIndeg
    rw [find_self ts hts t ht]
  rw [hinit, allDeps_iff_unemitted_zero, ← hfilter_eq]
  omega

theorem requeueByPriority_perm (prio : TestType → Int) (l : List TestTask) :
    (TestPlanGenerator.requeueByPriority prio l).Perm l := by
  unfold TestPlanGenerator.requeueByPriority
  by_cases h : l.isEmpty = true
  · rw [if_pos h]
  · rw [if_neg h]
    exact perm_sortedDescBy _ l

theorem planInv_init (prio : TestType → Int) (ts : List TestTask)
    (hts : (ids ts).Nodup) :
    PlanInv prio ts
      (sortedDescBy (fun t => prio t.test_type)
        (ts.filter (fun t => initIndeg ts t.id == 0))) [] := by
  refine ⟨⟨ts.filter (fun t => initIndeg ts t.id == 0), rfl, ?_⟩, ?_, ?_⟩
  · have hsub := @List.filter_sublist TestTask (fun t => initIndeg ts t.id == 0) ts
    have hpair := (pairwise_posOf_tasks ts hts).sublist hsub
    refine hpair.imp_of_mem ?_
    intro a b ha hb hab
    have hza : allDepsEmitted ts [] a = true := by
      obtain ⟨hats, hap⟩ := List.mem_filter.mp ha
      rw [beq_iff_eq] at hap
      exact (initIndeg_zero_iff ts hts a hats).mp hap
    have hzb : allDepsEmitted ts [] b = true := by
      obtain ⟨hbts, hbp⟩ := List.mem_filter.mp hb
      rw [beq_iff_eq] at hbp
      exact (initIndeg_zero_iff ts hts b hbts).mp hbp
    have hta : eligTime ts [] a = 0 := by
      have := eligTime_le_of_allDeps ts [] a hza
      simpa using this
    have htb : eligTime ts [] b = 0 := by
      have := eligTime_le_of_allDeps ts [] b hzb
      simpa using this
    unfold EligBefore
    rw [hta, htb]
    exact Or.inr ⟨rfl, hab⟩
  · intro pre x post heq
    exact absurd heq (by simp)
  · intro pre x post heq
    exact absurd heq (by simp)

theorem planLoop_spec (prio : TestType → Int) (ts : List TestTask)
    (hts : (ids ts).Nodup) :
    ∀ (fuel : Nat) (indeg : String → Int) (ready acc : List TestTask),
      LoopInv ts indeg ready acc →
      PlanInv prio ts ready acc →
      GreedyByPriority prio ts
        (loopCore ts (TestPlanGenerator.requeueByPriority prio) fuel indeg ready acc) ∧
      StableTieBreak prio ts
        (loopCore ts (TestPlanGenerator.requeueByPriority prio) fuel indeg ready acc) := by
  intro fuel
  induction fuel with
  | zero =>
    intro indeg ready acc _ hP
    rw [loopCore_zero]
    exact ⟨hP.hgreedy, hP.hstable⟩
  | succ fuel ih =>
    intro indeg ready acc hInv hP
    cases ready with
    | nil =>
      rw [loopCore_succ_nil]
      exact ⟨hP.hgreedy, hP.hstable⟩
    | cons c rest =>
      rw [loopCore_succ_cons]
      have hstepL := loopInv_step ts hts indeg c rest acc hInv
      have hstepL2 := loopInv_perm ts _ _ _ _ (requeueByPriority_perm prio _) hstepL
      have hstepP := planInv_step prio ts hts indeg c rest acc hInv hP
      exact ih _ _ _ hstepL2 hstepP

theorem generate_plan_eq (prio : TestType → Int) (ts : List TestTask)
    (hts : (ids ts).Nodup) :
    TestPlanGenerator.generate_plan prio ts =
      (if (loopCore ts (TestPlanGenerator.requeueByPriority prio) ts.length
            (initIndeg ts)
            (sortedDescBy (fun t => prio t.test_type)
              (ts.filter (fun t => initIndeg ts t.id == 0))) []).length == ts.length
       then Except.ok (loopCore ts (TestPlanGenerator.requeueByPriority prio) ts.length
            (initIndeg ts)
            (sortedDescBy (fun t => prio t.test_type)
              (ts.filter (fun t => initIndeg ts t.id == 0))) [])
       else Except.error ((ts.map (fun t => t.id)).filter
          (fun i => !((loopCore ts (TestPlanGenerator.requeueByPriority prio) ts.length
            (initIndeg ts)
            (sortedDescBy (fun t => prio t.test_type)
              (ts.filter (fun t => initIndeg ts t.id == 0))) []).any
                (fun t => t.id == i))))) := by
  unfold TestPlanGenerator.generate_plan
  rw [tasksById_eq_self ts hts]

/-- C5 (confirmed): whenever `generate_plan` succeeds, the produced order is
greedy by priority — at every position, the emitted task carries maximal
`priorityOf(category)` among all currently eligible tasks (tasks not yet
emitted whose in-set dependencies are all emitted). In particular, of two
root tasks with priorities 5 and 1, the priority-5 task comes first. -/
theorem C5_priority_bias (prio : TestType → Int) (ts : List TestTask)
    (hnd : (ids ts).Nodup) :
    ∀ l, TestPlanGenerator.generate_plan prio ts = Except.ok l →
      GreedyByPriority prio ts l := by
  intro l h
  rw [generate_plan_eq prio ts hnd] at h
  have hbase := loopInv_perm ts _ _ _ []
    (perm_sortedDescBy (fun t => prio t.test_type) _) (loopInv_init ts hnd)
  have hGS := planLoop_spec prio ts hnd ts.length (initIndeg ts)
    (sortedDescBy (fun t => prio t.test_type)
      (ts.filter (fun t => initIndeg ts t.id == 0))) [] hbase (planInv_init prio ts hnd)
  by_cases hc : ((loopCore ts (TestPlanGenerator.requeueByPriority prio) ts.length
      (initIndeg ts)
      (sortedDescBy (fun t => prio t.test_type)
        (ts.filter (fun t => initIndeg ts t.id == 0))) []).length == ts.length) = true
  · rw [if_pos hc] at h
    cases h
    exact hGS.1
  · rw [if_neg hc] at h
    cases h

/-- C6 (amended): whenever `generate_plan` succeeds, ties among
simultaneously eligible tasks of equal priority are broken by the order the
tasks entered the ready queue: the emitted task became eligible at a
strictly earlier step than every tied eligible rival, or at the same step
and earlier in the input sequence. The tie-break is not the original input
position alone. -/
theorem C6_tie_break_amended (prio : TestType → Int) (ts : List TestTask)
    (hnd : (ids ts).Nodup) :
    ∀ l, TestPlanGenerator.generate_plan prio ts = Except.ok l →
      StableTieBreak prio ts l := by
  intro l h
  rw [generate_plan_eq prio ts hnd] at h
  have hbase := loopInv_perm ts _ _ _ []
    (perm_sortedDescBy (fun t => prio t.test_type) _) (loopInv_init ts hnd)
  have hGS := planLoop_spec prio ts hnd ts.length (initIndeg ts)
    (sortedDescBy (fun t => prio t.test_type)
      (ts.filter (fun t => initIndeg ts t.id == 0))) [] hbase (planInv_init prio ts hnd)
  by_cases hc : ((loopCore ts (TestPlanGenerator.requeueByPriority prio) ts.length
      (initIndeg ts)
      (sortedDescBy (fun t => prio t.test_type)
        (ts.filter (fun t => initIndeg ts t.id == 0))) []).length == ts.length) = true
  · rw [if_pos hc] at h
    cases h
    exact hGS.2
  · rw [if_neg hc] at h
    cases h

/-- C6 counterexample: in `tieTasks`, after `A` is emitted both `B` and `C`
are eligible with equal priority and `B` precedes `C` in the input, yet the
generator emits `C` first — the queue keeps tasks in the order they became
ready, so the input-position tie-break asserted by the claim fails. -/
theorem C6_counterexample :
    TestPlanGenerator.generate_plan defaultPriority tieTasks =
      Except.ok [mkTask "A" TestType.unit [] TaskStatus.pending,
        mkTask "C" TestType.unit [] TaskStatus.pending,
        mkTask "B" TestType.unit ["A"] TaskStatus.pending] ∧
    ¬ InputOrderTieBreak defaultPriority tieTasks
      [mkTask "A" TestType.unit [] TaskStatus.pending,
        mkTask "C" TestType.unit [] TaskStatus.pending,
        mkTask "B" TestType.unit ["A"] TaskStatus.pending] := by
  constructor
  · rfl
  · intro h
    have := h [mkTask "A" TestType.unit [] TaskStatus.pending]
      (mkTask "C" TestType.unit [] TaskStatus.pending)
      [mkTask "B" TestType.unit ["A"] TaskStatus.pending] rfl
      (mkTask "B" TestType.unit ["A"] TaskStatus.pending)
      (by decide) (by decide) (by decide) (by decide) rfl
    revert this
    decide

theorem C5_witness :
    (ids rootedTasks).Nodup ∧
    TestPlanGenerator.generate_plan defaultPriority rootedTasks =
      Except.ok [mkTask "E" TestType.e2e [] TaskStatus.pending,
        mkTask "U" TestType.unit [] TaskStatus.pending] ∧
    GreedyByPriority defaultPriority rootedTasks
      [mkTask "E" TestType.e2e [] TaskStatus.pending,
        mkTask "U" TestType.unit [] TaskStatus.pending] := by
  refine ⟨by decide, rfl, ?_⟩
  exact C5_priority_bias defaultPriority rootedTasks (by decide) _ rfl

theorem C6_witness :
    (ids tieTasks).Nodup ∧
    TestPlanGenerator.generate_plan defaultPriority tieTasks =
      Except.ok [mkTask "A" TestType.unit [] TaskStatus.pending,
        mkTask "C" TestType.unit [] TaskStatus.pending,
        mkTask "B" TestType.unit ["A"] TaskStatus.pending] ∧
    StableTieBreak defaultPriority tieTasks
      [mkTask "A" TestType.unit [] TaskStatus.pending,
        mkTask "C" TestType.unit [] TaskStatus.pending,
        mkTask "B" TestType.unit ["A"] TaskStatus.pending] := by
  refine ⟨by decide, rfl, ?_⟩
  exact C6_tie_break_amended defaultPriority tieTasks (by decide) _ rfl
